import Mathlib

/-!
Verification development for the NSCP 2015 rectangular-beam calculator
(`backend/apps/beams/engine.py`).

The placement engine works in exact rational arithmetic (every IEEE-754
float is a rational number, and none of the verified placement claims
depends on rounding of doubles).  The flexural solver, the shear module
and the pipeline are embedded over the reals, with `Real.pi` for
`math.pi` and `Real.sqrt` for `math.sqrt`.

String-valued tags of the source (`role`, error messages, equilibrium
case labels, `governing_limit`) are embedded as enumerations; each
constructor is documented with the source string it stands for.

The second-layer index-padding `while` loop of
`pick_second_row_positions` does not terminate for some inputs; its
embedding (`padWhile`) is fuel-indexed, `none` meaning that the fuel ran
out.  Two iterations of fuel are provably enough to decide the loop
(`padWhile_two_complete`): one pass either completes the selection or
saturates it, and a saturated state is a fixpoint, so exhausting fuel 2
coincides with genuine non-termination (`padWhile_none_of_stuck`).
-/

namespace NSCP

/-- Bar role; source strings are `tension` and `compression`. -/
inductive Role where
  | tension
  | compression
deriving DecidableEq

/-- Mirror of the `Bar` dataclass (placement side, exact rationals). -/
structure BarQ where
  x_mm : ℚ
  y_mm : ℚ
  dia_mm : ℚ
  role : Role
  layer : ℤ
deriving DecidableEq

/-- Mirror of the `StirrupRect` dataclass. -/
structure StirrupRect where
  x_min : ℚ
  y_min : ℚ
  x_max : ℚ
  y_max : ℚ
deriving DecidableEq

/-- Mirror of the `PlacementResult` dataclass. -/
structure PlacementResult where
  bars : List BarQ
  stirrup_inside : StirrupRect
deriving DecidableEq

/-- The `ValueError` messages raised by `place_bars`, as an enumeration:
`rowOverflow` is `Bars do not fit in one row across width ...`,
`minTwoBars` is `Bottom layer cannot host at least 2 bars ...`,
`tensionVertical` is `Tension bars need more vertical space ...`,
`compressionVertical` is `Compression bars need more vertical space ...`,
`selectionMismatch` is `Internal placement issue for second layer ...`. -/
inductive PlaceErr where
  | rowOverflow
  | minTwoBars
  | tensionVertical
  | compressionVertical
  | selectionMismatch
deriving DecidableEq

/-- Outcome of a call to the placement engine: a returned value, a raised
`ValueError`, or non-termination of the index-padding loop. -/
inductive Res (α : Type) where
  | ok (a : α)
  | err (e : PlaceErr)
  | hang
deriving DecidableEq

/-- Module constant `EPS = 1e-9`. -/
def EPSq : ℚ := 1 / 1000000000

/-- Mirror of `min_clear_spacing` (NSCP 425.2.1); the aggregate factor in
the source is the literal `1.33`. -/
def minClearSpacing (db : ℚ) (agg : Option ℚ) : ℚ :=
  let base := max 25 db
  match agg with
  | some a => if 0 < a then max base (133 / 100 * a) else base
  | none => base

/-- Mirror of the inner helper `max_bars_one_row`. -/
def maxBarsOneRow (bInside db sClear : ℚ) : ℤ :=
  if bInside ≤ 0 then 0
  else max ⌊(bInside + sClear) / (db + sClear)⌋ 0

/-- Mirror of the inner helper `symmetric_row_positions`: symmetric bar
center abscissae (relative to the inside face), or the row-overflow
error. -/
def symmetricRowPositions (bi : ℚ) (n : ℤ) (db sClear : ℚ) :
    Except PlaceErr (List ℚ) :=
  let req : ℚ := n * db + (n - 1) * sClear
  if EPSq < req - bi then .error .rowOverflow
  else
    let leftClear := (bi - req) / 2
    .ok ((List.range n.toNat).map
      (fun i : ℕ => leftClear + db / 2 + (i : ℚ) * (db + sClear)))

/-- Python `round` (banker's rounding, half to even) on an exact
rational.  The source rounds the IEEE double nearest to the exact value;
the two differ only when the exact value lies within one double ulp of a
half-integer, and no verified claim depends on that tie behaviour. -/
def pyRound (q : ℚ) : ℤ :=
  if q - ⌊q⌋ < 1 / 2 then ⌊q⌋
  else if 1 / 2 < q - ⌊q⌋ then ⌊q⌋ + 1
  else if ⌊q⌋ % 2 = 0 then ⌊q⌋ else ⌊q⌋ + 1

/-- Insert a value into an ascending duplicate-free list, keeping it
ascending and duplicate-free. -/
def insertSorted (i : ℕ) : List ℕ → List ℕ
  | [] => [i]
  | j :: rest =>
    if i < j then i :: j :: rest
    else if i = j then j :: rest
    else j :: insertSorted i rest

/-- Mirror of Python `sorted(set(l))`. -/
def sortedDedup (l : List ℕ) : List ℕ :=
  l.foldr insertSorted []

/-- Body of the `for i in range(m)` loop inside the padding `while` of
`pick_second_row_positions`: append the index if it is not yet selected
and fewer than `n2` indices are selected. -/
def padStep (n2 : ℕ) (acc : List ℕ) (i : ℕ) : List ℕ :=
  if acc.length < n2 ∧ i ∉ acc then acc ++ [i] else acc

/-- One pass of the `for i in range(m)` body inside the padding `while`
loop of `pick_second_row_positions`: append each index not yet selected,
stopping once `n2` indices are selected. -/
def padPass (n2 m : ℕ) (idxs : List ℕ) : List ℕ :=
  (List.range m).foldl (padStep n2) idxs

/-- Fuel-indexed embedding of the padding `while len(idxs) < n2` loop;
`none` means the fuel ran out before the loop condition turned false. -/
def padWhile (n2 m : ℕ) : ℕ → List ℕ → Option (List ℕ)
  | 0, idxs => if n2 ≤ idxs.length then some idxs else none
  | fuel + 1, idxs =>
    if n2 ≤ idxs.length then some idxs
    else padWhile n2 m fuel (padPass n2 m idxs)

/-- Mirror of the inner helper `pick_second_row_positions`.  The padding
loop is run with fuel 2, which decides it (see `padWhile_two_complete`
and `padWhile_none_of_stuck`); `none` stands for non-termination. -/
def pickSecondRowPositions (xBot : List ℚ) (n2 : ℤ) : Option (List ℚ) :=
  let m := xBot.length
  if n2 ≤ 0 ∨ m = 0 then some []
  else
    let idxsOpt : Option (List ℕ) :=
      if n2 = 1 then some [0]
      else if n2 = 2 then some [0, m - 1]
      else if n2 = 3 then some [0, m / 2, m - 1]
      else
        let remain := (n2 - 2).toNat
        let raw := [0, m - 1] ++ (List.range remain).map
          (fun k : ℕ => (pyRound (((k : ℚ) + 1) * ((m : ℚ) - 1) / ((remain : ℚ) + 1))).toNat)
        padWhile n2.toNat m 2 ((sortedDedup raw).take n2.toNat)
    idxsOpt.map (fun idxs => idxs.map (fun i => xBot.getD i 0))

/-- Tension-face part of `place_bars` (bottom bars, layers 1 and 2). -/
def placeTensionBars (bInside insideXMin insideYMin insideYMax : ℚ)
    (nT : ℤ) (dbT : ℚ) (agg : Option ℚ) : Res (List BarQ) :=
  let sminT := minClearSpacing dbT agg
  let y1 := insideYMin + dbT / 2
  let cap1 := maxBarsOneRow bInside dbT sminT
  if nT ≤ cap1 then
    match symmetricRowPositions bInside nT dbT sminT with
    | .error e => .err e
    | .ok xs =>
      .ok (xs.map (fun x => ⟨insideXMin + x, y1, dbT, .tension, 1⟩))
  else
    if cap1 < 2 then .err .minTwoBars
    else
      match symmetricRowPositions bInside cap1 dbT sminT with
      | .error e => .err e
      | .ok xBotRel =>
        let row1 : List BarQ :=
          xBotRel.map (fun x => ⟨insideXMin + x, y1, dbT, .tension, 1⟩)
        let sVert : ℚ := 25
        let y2 := y1 + dbT + sVert
        if insideYMax + EPSq < y2 + dbT / 2 then .err .tensionVertical
        else
          match pickSecondRowPositions xBotRel (nT - cap1) with
          | none => .hang
          | some x2pick =>
            if x2pick.length ≠ (nT - cap1).toNat then .err .selectionMismatch
            else
              .ok (row1 ++ x2pick.map
                (fun x => ⟨insideXMin + x, y2, dbT, .tension, 2⟩))

/-- Compression-face part of `place_bars` (top bars, layers 1 and 2);
only entered when `n_compression > 0` and a positive diameter is given.
Note the source has no second-layer selection-length check here. -/
def placeCompressionBars (bInside insideXMin insideYMin insideYMax : ℚ)
    (nC : ℤ) (dbC : ℚ) (agg : Option ℚ) : Res (List BarQ) :=
  let sminC := minClearSpacing dbC agg
  let ytop1 := insideYMax - dbC / 2
  let capc := maxBarsOneRow bInside dbC sminC
  if nC ≤ capc then
    match symmetricRowPositions bInside nC dbC sminC with
    | .error e => .err e
    | .ok xs =>
      .ok (xs.map (fun x => ⟨insideXMin + x, ytop1, dbC, .compression, 1⟩))
  else
    match symmetricRowPositions bInside capc dbC sminC with
    | .error e => .err e
    | .ok xTopRel =>
      let row1 : List BarQ :=
        xTopRel.map (fun x => ⟨insideXMin + x, ytop1, dbC, .compression, 1⟩)
      let sVertC : ℚ := 25
      let ytop2 := ytop1 - (dbC + sVertC)
      if ytop2 - dbC / 2 < insideYMin - EPSq then .err .compressionVertical
      else
        match pickSecondRowPositions xTopRel (nC - capc) with
        | none => .hang
        | some x2cpick =>
          .ok (row1 ++ x2cpick.map
            (fun x => ⟨insideXMin + x, ytop2, dbC, .compression, 2⟩))

/-- Mirror of `place_bars`.  `dbC = none` stands for
`db_compression=None`. -/
def placeBars (width height cover stirrupDia : ℚ) (nT : ℤ) (dbT : ℚ)
    (nC : ℤ) (dbC : Option ℚ) (agg : Option ℚ) : Res PlacementResult :=
  let insideXMin := cover + stirrupDia
  let insideXMax := width - cover - stirrupDia
  let insideYMin := cover + stirrupDia
  let insideYMax := height - cover - stirrupDia
  let bInside := insideXMax - insideXMin
  match placeTensionBars bInside insideXMin insideYMin insideYMax nT dbT agg with
  | .err e => .err e
  | .hang => .hang
  | .ok tBars =>
    let compRes : Res (List BarQ) :=
      if 0 < nC then
        match dbC with
        | some dbc =>
          if 0 < dbc then
            placeCompressionBars bInside insideXMin insideYMin insideYMax nC dbc agg
          else .ok []
        | none => .ok []
      else .ok []
    match compRes with
    | .err e => .err e
    | .hang => .hang
    | .ok cBars =>
      .ok ⟨tBars ++ cBars,
        ⟨insideXMin, insideYMin, insideXMax, insideYMax⟩⟩

/-- Number of placed bars of a given role in an outcome (a junk count on
non-`ok` outcomes, used only to state concrete evaluations). -/
def countRole (o : Res PlacementResult) (r : Role) : ℕ :=
  match o with
  | .ok p => (p.bars.filter (fun b => b.role = r)).length
  | _ => 0

/-- Bars returned by the placement engine for the benchmark scenario of
the spec (width 300, height 500, cover 40, stirrup 10, four 20 mm
tension bars). -/
def c1Bars : List BarQ :=
  [⟨165 / 2, 60, 20, .tension, 1⟩, ⟨255 / 2, 60, 20, .tension, 1⟩,
   ⟨345 / 2, 60, 20, .tension, 1⟩, ⟨435 / 2, 60, 20, .tension, 1⟩]

theorem c1_place_eval :
    placeBars 300 500 40 10 4 20 0 none none =
      .ok ⟨c1Bars, ⟨50, 50, 250, 450⟩⟩ := by
  have hcap : maxBarsOneRow 200 20 25 = 5 := by norm_num [maxBarsOneRow]
  have hsym : symmetricRowPositions 200 4 20 25 =
      .ok [65 / 2, 155 / 2, 245 / 2, 335 / 2] := by
    norm_num [symmetricRowPositions, EPSq]
    rw [show List.range (Int.toNat 4) = [0, 1, 2, 3] from rfl]
    norm_num
  have hmin : minClearSpacing 20 none = 25 := by norm_num [minClearSpacing]
  have ht : placeTensionBars 200 50 50 450 4 20 none = .ok c1Bars := by
    rw [placeTensionBars, hmin]
    norm_num [hcap, hsym, c1Bars]
  rw [placeBars]
  norm_num [ht]

/-- A state containing every index below `m` is a fixpoint of the
padding pass: nothing is left to append. -/
theorem padPass_fixpoint (n2 m : ℕ) (idxs : List ℕ)
    (h : ∀ i, i < m → i ∈ idxs) : padPass n2 m idxs = idxs := by
  unfold padPass
  have key : ∀ l : List ℕ, (∀ i ∈ l, i ∈ idxs) →
      l.foldl (padStep n2) idxs = idxs := by
    intro l
    induction l with
    | nil => intro _; rfl
    | cons a t ih =>
      intro hl
      have ha : a ∈ idxs := hl a (List.mem_cons_self a t)
      simp only [List.foldl_cons, padStep]
      rw [if_neg (by simp [ha]), ih (fun i hi => hl i (List.mem_cons_of_mem a hi))]
  exact key (List.range m) (fun i hi => h i (List.mem_range.mp hi))

/-- The padding `while` loop really diverges on a saturated short state:
no amount of fuel makes it terminate. -/
theorem padWhile_none_of_stuck (n2 m : ℕ) (idxs : List ℕ)
    (hlen : idxs.length < n2) (hmem : ∀ i, i < m → i ∈ idxs) :
    ∀ fuel, padWhile n2 m fuel idxs = none := by
  intro fuel
  induction fuel with
  | zero => simp [padWhile, Nat.not_le.mpr hlen]
  | succ f ih =>
    simp only [padWhile, if_neg (Nat.not_le.mpr hlen)]
    rw [padPass_fixpoint n2 m idxs hmem]
    exact ih

/-- Placement-engine run that reaches the non-terminating padding state:
width 200, height 400, cover 25, stirrup 10, seven 25 mm tension bars
(first-layer capacity 3, so the second layer needs 4 > 3 bars). -/
theorem c9_place_hang_eval :
    placeBars 200 400 25 10 7 25 0 none none = .hang := by
  have hcap : maxBarsOneRow 130 25 25 = 3 := by norm_num [maxBarsOneRow]
  have hsym : symmetricRowPositions 130 3 25 25 = .ok [15, 65, 115] := by
    norm_num [symmetricRowPositions, EPSq]
    rw [show List.range (Int.toNat 3) = [0, 1, 2] from rfl]
    norm_num
  have hround1 : pyRound (2 / 3) = 1 := by
    norm_num [pyRound]
  have hround2 : pyRound (4 / 3) = 1 := by
    norm_num [pyRound]
  have hpick : pickSecondRowPositions [15, 65, 115] 4 = none := by
    rw [pickSecondRowPositions]
    norm_num
    rw [show List.range (Int.toNat 2) = [0, 1] from rfl]
    have hc2 : ((Int.toNat 2 : ℕ) : ℚ) + 1 = 3 := by
      rw [show Int.toNat 2 = 2 from rfl]; norm_num
    rw [hc2]
    norm_num [hround1, hround2]
    rfl
  have hmin : minClearSpacing 25 none = 25 := by norm_num [minClearSpacing]
  have ht : placeTensionBars 130 35 35 365 7 25 none = .hang := by
    rw [placeTensionBars, hmin]
    norm_num [hcap, hsym, EPSq, hpick]
  rw [placeBars]
  norm_num [ht]

/-- The compression-face path of the placement engine silently returns
zero compression bars when the one-row capacity is zero: width 170 gives
an inside width of 70 mm, a 100 mm compression bar then has capacity 0,
and the second-layer selection over an empty first layer returns the
empty list with no length check. -/
theorem c3_place_eval :
    placeBars 170 600 40 10 2 20 1 (some 100) none =
      .ok ⟨[⟨125 / 2, 60, 20, .tension, 1⟩, ⟨215 / 2, 60, 20, .tension, 1⟩],
        ⟨50, 50, 120, 550⟩⟩ := by
  have hcap : maxBarsOneRow 70 20 25 = 2 := by norm_num [maxBarsOneRow]
  have hsym : symmetricRowPositions 70 2 20 25 = .ok [25 / 2, 115 / 2] := by
    norm_num [symmetricRowPositions, EPSq]
    rw [show List.range (Int.toNat 2) = [0, 1] from rfl]
    norm_num
  have hmin : minClearSpacing 20 none = 25 := by norm_num [minClearSpacing]
  have ht : placeTensionBars 70 50 50 550 2 20 none =
      .ok [⟨125 / 2, 60, 20, .tension, 1⟩, ⟨215 / 2, 60, 20, .tension, 1⟩] := by
    rw [placeTensionBars, hmin]
    norm_num [hcap, hsym]
  have hcapc : maxBarsOneRow 70 100 100 = 0 := by norm_num [maxBarsOneRow]
  have hsymc : symmetricRowPositions 70 0 100 100 = .ok [] := by
    norm_num [symmetricRowPositions, EPSq]
  have hminc : minClearSpacing 100 none = 100 := by norm_num [minClearSpacing]
  have hpickc : pickSecondRowPositions [] 1 = some [] := by
    rw [pickSecondRowPositions]; norm_num
  have hc : placeCompressionBars 70 50 50 550 1 100 none = .ok [] := by
    rw [placeCompressionBars, hminc]
    norm_num [hcapc, hsymc, EPSq, hpickc]
  rw [placeBars]
  norm_num [ht, hc]

/-- Folding the padding step: the selection never grows past `n2` and
never shrinks, keeps old members, adds only scanned indices, preserves
duplicate-freedom, and either reaches exactly `n2` members or absorbs
every scanned index. -/
theorem padFold_props (n2 : ℕ) :
    ∀ (l acc : List ℕ), acc.length ≤ n2 →
      (l.foldl (padStep n2) acc).length ≤ n2 ∧
      acc.length ≤ (l.foldl (padStep n2) acc).length ∧
      (∀ a ∈ acc, a ∈ l.foldl (padStep n2) acc) ∧
      (∀ a ∈ l.foldl (padStep n2) acc, a ∈ acc ∨ a ∈ l) ∧
      (acc.Nodup → (l.foldl (padStep n2) acc).Nodup) ∧
      ((l.foldl (padStep n2) acc).length = n2 ∨
        ∀ i ∈ l, i ∈ l.foldl (padStep n2) acc) := by
  intro l
  induction l with
  | nil =>
    intro acc hlen
    exact ⟨hlen, le_rfl, fun a ha => ha, fun a ha => Or.inl ha, fun h => h,
      Or.inr (by simp)⟩
  | cons b t ih =>
    intro acc hlen
    simp only [List.foldl_cons]
    by_cases hc : acc.length < n2 ∧ b ∉ acc
    · have hstep : padStep n2 acc b = acc ++ [b] := if_pos hc
      rw [hstep]
      have hlen' : (acc ++ [b]).length ≤ n2 := by
        simp only [List.length_append, List.length_singleton]; omega
      obtain ⟨h1, h2, h3, h4, h5, h6⟩ := ih (acc ++ [b]) hlen'
      refine ⟨h1, ?_, ?_, ?_, ?_, ?_⟩
      · calc acc.length ≤ (acc ++ [b]).length := by simp
          _ ≤ _ := h2
      · exact fun a ha => h3 a (List.mem_append_left _ ha)
      · intro a ha
        rcases h4 a ha with h | h
        · rcases List.mem_append.mp h with h | h
          · exact Or.inl h
          · simp only [List.mem_singleton] at h
            exact Or.inr (h ▸ List.mem_cons_self b t)
        · exact Or.inr (List.mem_cons_of_mem b h)
      · intro hnd
        refine h5 (List.Nodup.append hnd (List.nodup_singleton b) ?_)
        intro a ha hb
        simp only [List.mem_singleton] at hb
        exact hc.2 (hb ▸ ha)
      · rcases h6 with h | h
        · exact Or.inl h
        · refine Or.inr (fun i hi => ?_)
          rcases List.mem_cons.mp hi with rfl | hi
          · exact h3 i (List.mem_append_right _ (List.mem_singleton_self i))
          · exact h i hi
    · have hstep : padStep n2 acc b = acc := if_neg hc
      rw [hstep]
      obtain ⟨h1, h2, h3, h4, h5, h6⟩ := ih acc hlen
      push_neg at hc
      refine ⟨h1, h2, h3,
        fun a ha => (h4 a ha).imp id (List.mem_cons_of_mem b), h5, ?_⟩
      rcases h6 with h | h
      · exact Or.inl h
      · by_cases hb : b ∈ acc
        · refine Or.inr (fun i hi => ?_)
          rcases List.mem_cons.mp hi with rfl | hi
          · exact h3 i hb
          · exact h i hi
        · have hge : n2 ≤ acc.length := Nat.le_of_not_lt (fun hlt => hb (hc hlt))
          exact Or.inl (le_antisymm h1 (hge.trans h2))

/-- With a duplicate-free start of at most `n2` entries and at least `n2`
available indices, fuel 2 completes the padding loop with exactly `n2`
selected indices. -/
theorem padWhile_two_some (n2 m : ℕ) (acc : List ℕ) (hlen : acc.length ≤ n2)
    (hnm : n2 ≤ m) :
    ∃ r, padWhile n2 m 2 acc = some r ∧ r.length = n2 := by
  by_cases h0 : n2 ≤ acc.length
  · exact ⟨acc, by simp [padWhile, h0], le_antisymm hlen h0⟩
  · obtain ⟨h1, h2, _h3, h4, h5, h6⟩ :=
      padFold_props n2 (List.range m) acc hlen
    have hpass : padPass n2 m acc = (List.range m).foldl (padStep n2) acc := rfl
    have hlen1 : (padPass n2 m acc).length = n2 := by
      rw [hpass]
      rcases h6 with h | h
      · exact h
      · have hsub : List.range m ⊆ (List.range m).foldl (padStep n2) acc :=
          fun i hi => h i hi
        have hm := (List.subperm_of_subset (List.nodup_range m) hsub).length_le
        rw [List.length_range] at hm
        omega
    refine ⟨padPass n2 m acc, ?_, hlen1⟩
    have hstep2 : padWhile n2 m 2 acc = padWhile n2 m 1 (padPass n2 m acc) := by
      simp [padWhile, h0]
    rw [hstep2]
    have hge : n2 ≤ (padPass n2 m acc).length := le_of_eq hlen1.symm
    simp [padWhile, hge]

/-- With a duplicate-free start drawn from fewer than `n2` available
indices, the padding loop never terminates: every fuel runs out. -/
theorem padWhile_stuck_none (n2 m : ℕ) (acc : List ℕ) (hnd : acc.Nodup)
    (hsub : ∀ a ∈ acc, a < m) (hmn : m < n2) :
    ∀ fuel, padWhile n2 m fuel acc = none := by
  have hsub' : acc ⊆ List.range m := fun a ha => List.mem_range.mpr (hsub a ha)
  have hlenacc : acc.length ≤ m := by
    have := (List.subperm_of_subset hnd hsub').length_le
    rwa [List.length_range] at this
  have hltacc : acc.length < n2 := lt_of_le_of_lt hlenacc hmn
  intro fuel
  cases fuel with
  | zero => simp [padWhile, Nat.not_le.mpr hltacc]
  | succ f =>
    simp only [padWhile, if_neg (Nat.not_le.mpr hltacc)]
    obtain ⟨h1, h2, h3, h4, h5, h6⟩ :=
      padFold_props n2 (List.range m) acc (le_of_lt hltacc)
    have hpasssub : ∀ a ∈ padPass n2 m acc, a < m := by
      intro a ha
      rcases h4 a ha with h | h
      · exact hsub a h
      · exact List.mem_range.mp h
    have hpassnd : (padPass n2 m acc).Nodup := h5 hnd
    have hpasslen : (padPass n2 m acc).length ≤ m := by
      have hs : padPass n2 m acc ⊆ List.range m :=
        fun a ha => List.mem_range.mpr (hpasssub a ha)
      have := (List.subperm_of_subset hpassnd hs).length_le
      rwa [List.length_range] at this
    have hpasslt : (padPass n2 m acc).length < n2 := lt_of_le_of_lt hpasslen hmn
    have hfull : ∀ i, i < m → i ∈ padPass n2 m acc := by
      rcases h6 with h | h
      · exfalso
        rw [show (List.range m).foldl (padStep n2) acc = padPass n2 m acc
          from rfl] at h
        omega
      · exact fun i hi => h i (List.mem_range.mpr hi)
    exact padWhile_none_of_stuck n2 m _ hpasslt hfull f

/-- Rounding a nonnegative value is nonnegative. -/
theorem pyRound_nonneg (q : ℚ) (h : 0 ≤ q) : 0 ≤ pyRound q := by
  have hf : (0 : ℤ) ≤ ⌊q⌋ := Int.le_floor.mpr (by exact_mod_cast h)
  unfold pyRound
  split_ifs <;> omega

/-- Rounding cannot exceed an integer bound on the value. -/
theorem pyRound_le (q : ℚ) (c : ℤ) (h : q ≤ (c : ℚ)) : pyRound q ≤ c := by
  have hf : ⌊q⌋ ≤ c := by
    have := Int.floor_le_floor h
    rwa [Int.floor_intCast] at this
  unfold pyRound
  split_ifs with h1 h2 h3
  · exact hf
  · -- here 1/2 < q - ⌊q⌋, so ⌊q⌋ < c
    have hq : (⌊q⌋ : ℚ) + 1 / 2 < q := by linarith
    have : (⌊q⌋ : ℚ) < (c : ℚ) - 1 / 2 := by linarith
    have : (⌊q⌋ : ℚ) < (c : ℚ) := by linarith
    have : ⌊q⌋ < c := by exact_mod_cast this
    omega
  · exact hf
  · -- tie case rounded up: q - ⌊q⌋ = 1/2 exactly
    have hq : (⌊q⌋ : ℚ) + 1 / 2 ≤ q := by linarith
    have : (⌊q⌋ : ℚ) < (c : ℚ) := by linarith
    have : ⌊q⌋ < c := by exact_mod_cast this
    omega

/-- Membership in `insertSorted`. -/
theorem mem_insertSorted (i a : ℕ) : ∀ l : List ℕ,
    (a ∈ insertSorted i l ↔ a = i ∨ a ∈ l)
  | [] => by simp [insertSorted]
  | j :: rest => by
    unfold insertSorted
    split_ifs with h1 h2
    · simp only [List.mem_cons]
    · subst h2
      simp only [List.mem_cons]
      tauto
    · simp only [List.mem_cons, mem_insertSorted i a rest]
      tauto

/-- Inserting preserves strict ascending order. -/
theorem insertSorted_sorted (i : ℕ) : ∀ l : List ℕ,
    l.Sorted (· < ·) → (insertSorted i l).Sorted (· < ·)
  | [] => by simp [insertSorted]
  | j :: rest => by
    intro hs
    rw [List.sorted_cons] at hs
    obtain ⟨hj, hrest⟩ := hs
    unfold insertSorted
    split_ifs with h1 h2
    · rw [List.sorted_cons]
      refine ⟨?_, List.sorted_cons.mpr ⟨hj, hrest⟩⟩
      intro b hb
      rcases List.mem_cons.mp hb with rfl | hb
      · exact h1
      · exact h1.trans (hj b hb)
    · exact List.sorted_cons.mpr ⟨hj, hrest⟩
    · rw [List.sorted_cons]
      refine ⟨?_, insertSorted_sorted i rest hrest⟩
      intro b hb
      rcases (mem_insertSorted i b rest).mp hb with rfl | hb
      · omega
      · exact hj b hb

/-- The deduplicating sort really sorts strictly ascending. -/
theorem sortedDedup_sorted (l : List ℕ) : (sortedDedup l).Sorted (· < ·) := by
  unfold sortedDedup
  induction l with
  | nil => simp
  | cons a t ih => exact insertSorted_sorted a _ ih

/-- The deduplicating sort preserves membership. -/
theorem mem_sortedDedup (a : ℕ) (l : List ℕ) :
    a ∈ sortedDedup l ↔ a ∈ l := by
  unfold sortedDedup
  induction l with
  | nil => simp
  | cons b t ih =>
    simp only [List.foldr_cons, mem_insertSorted, List.mem_cons, ih]

/-- The deduplicating sort gives a duplicate-free list. -/
theorem sortedDedup_nodup (l : List ℕ) : (sortedDedup l).Nodup :=
  (sortedDedup_sorted l).nodup

/-- For at least one available position and at least one requested index,
the second-layer selection diverges exactly when at least 4 indices are
requested and the first layer has fewer positions than requested. -/
theorem pick_none_iff (xBot : List ℚ) (n2 : ℤ) (hn : 1 ≤ n2)
    (hm : 1 ≤ xBot.length) :
    (pickSecondRowPositions xBot n2 = none ↔
      4 ≤ n2 ∧ (xBot.length : ℤ) < n2) := by
  unfold pickSecondRowPositions
  rw [if_neg (by push_neg; exact ⟨by omega, by omega⟩)]
  by_cases h1 : n2 = 1
  · simp [h1]
  · rw [if_neg h1]
    by_cases h2 : n2 = 2
    · simp [h2]
    · rw [if_neg h2]
      by_cases h3 : n2 = 3
      · simp [h3]
      · rw [if_neg h3]
        have h4 : 4 ≤ n2 := by omega
        set m := xBot.length with hmdef
        set remain := (n2 - 2).toNat with hremdef
        set raw : List ℕ := [0, m - 1] ++ (List.range remain).map
          (fun k : ℕ =>
            (pyRound (((k : ℚ) + 1) * ((m : ℚ) - 1) / ((remain : ℚ) + 1))).toNat)
          with hraw
        set acc0 : List ℕ := (sortedDedup raw).take n2.toNat with hacc0
        have hlen0 : acc0.length ≤ n2.toNat := by
          rw [hacc0]
          simp [List.length_take]
        have hnd0 : acc0.Nodup := by
          rw [hacc0]
          exact (sortedDedup_nodup raw).sublist (List.take_sublist _ _)
        have hsub0 : ∀ a ∈ acc0, a < m := by
          intro a ha
          have hmem : a ∈ raw := by
            rw [hacc0] at ha
            exact (mem_sortedDedup a raw).mp (List.mem_of_mem_take ha)
          rw [hraw] at hmem
          rcases List.mem_append.mp hmem with h | h
          · rcases List.mem_cons.mp h with rfl | h
            · omega
            · simp only [List.mem_singleton] at h
              omega
          · obtain ⟨k, hk, hka⟩ := List.mem_map.mp h
            have hkr : k < remain := List.mem_range.mp hk
            have hq0 : (0 : ℚ) ≤ ((k : ℚ) + 1) * ((m : ℚ) - 1) / ((remain : ℚ) + 1) := by
              apply div_nonneg
              · apply mul_nonneg
                · positivity
                · have : (1 : ℚ) ≤ (m : ℚ) := by exact_mod_cast hm
                  linarith
              · positivity
            have hqle : ((k : ℚ) + 1) * ((m : ℚ) - 1) / ((remain : ℚ) + 1) ≤
                ((m : ℤ) - 1 : ℤ) := by
              rw [div_le_iff₀ (by positivity)]
              have h1m : (1 : ℚ) ≤ (m : ℚ) := by exact_mod_cast hm
              have hk1 : (k : ℚ) + 1 ≤ (remain : ℚ) + 1 := by
                have : (k : ℚ) ≤ (remain : ℚ) := by exact_mod_cast hkr.le
                linarith
              have hcast : (((m : ℤ) - 1 : ℤ) : ℚ) = (m : ℚ) - 1 := by
                push_cast; ring
              rw [hcast]
              nlinarith
            have hple := pyRound_le _ _ hqle
            have hp0 := pyRound_nonneg _ hq0
            have : (pyRound (((k : ℚ) + 1) * ((m : ℚ) - 1) / ((remain : ℚ) + 1))).toNat
                ≤ ((m : ℤ) - 1).toNat := Int.toNat_le_toNat hple
            rw [← hka] at *
            omega
        constructor
        · intro hnone
          by_contra hcon
          push_neg at hcon
          have hmn : n2.toNat ≤ m := by omega
          obtain ⟨r, hr, _⟩ := padWhile_two_some n2.toNat m acc0 hlen0 hmn
          rw [hr] at hnone
          simp at hnone
        · intro ⟨_, hlt⟩
          have hmn : m < n2.toNat := by omega
          rw [padWhile_stuck_none n2.toNat m acc0 hnd0 hsub0 hmn 2]
          rfl

/-- When the second-layer selection terminates (with at least one
position and at least one requested index), it returns exactly the
requested number of indices. -/
theorem pick_some_length (xBot : List ℚ) (n2 : ℤ) (l : List ℚ)
    (hn : 1 ≤ n2) (hm : 1 ≤ xBot.length)
    (h : pickSecondRowPositions xBot n2 = some l) :
    l.length = n2.toNat := by
  unfold pickSecondRowPositions at h
  rw [if_neg (by push_neg; exact ⟨by omega, by omega⟩)] at h
  by_cases h1 : n2 = 1
  · rw [if_pos h1] at h
    simp only [Option.map_some', Option.some_inj] at h
    subst h
    simp [h1]
  · rw [if_neg h1] at h
    by_cases h2 : n2 = 2
    · rw [if_pos h2] at h
      simp only [Option.map_some', Option.some_inj] at h
      subst h
      simp [h2]
    · rw [if_neg h2] at h
      by_cases h3 : n2 = 3
      · rw [if_pos h3] at h
        simp only [Option.map_some', Option.some_inj] at h
        subst h
        simp [h3]
      · rw [if_neg h3] at h
        have h4 : 4 ≤ n2 := by omega
        set m := xBot.length with hmdef
        set remain := (n2 - 2).toNat with hremdef
        set raw : List ℕ := [0, m - 1] ++ (List.range remain).map
          (fun k : ℕ =>
            (pyRound (((k : ℚ) + 1) * ((m : ℚ) - 1) / ((remain : ℚ) + 1))).toNat)
          with hraw
        set acc0 : List ℕ := (sortedDedup raw).take n2.toNat with hacc0
        have hlen0 : acc0.length ≤ n2.toNat := by
          rw [hacc0]; simp [List.length_take]
        by_cases hmn : n2.toNat ≤ m
        · obtain ⟨r, hr, hrl⟩ := padWhile_two_some n2.toNat m acc0 hlen0 hmn
          rw [hr] at h
          simp only [Option.map_some', Option.some_inj] at h
          subst h
          simp [hrl]
        · have hnd0 : acc0.Nodup := by
            rw [hacc0]
            exact (sortedDedup_nodup raw).sublist (List.take_sublist _ _)
          have hsub0 : ∀ a ∈ acc0, a < m := by
            intro a ha
            have hmem : a ∈ raw := by
              rw [hacc0] at ha
              exact (mem_sortedDedup a raw).mp (List.mem_of_mem_take ha)
            rw [hraw] at hmem
            rcases List.mem_append.mp hmem with hx | hx
            · rcases List.mem_cons.mp hx with rfl | hx
              · omega
              · simp only [List.mem_singleton] at hx
                omega
            · obtain ⟨k, hk, hka⟩ := List.mem_map.mp hx
              have hkr : k < remain := List.mem_range.mp hk
              have hq0 : (0 : ℚ) ≤ ((k : ℚ) + 1) * ((m : ℚ) - 1) / ((remain : ℚ) + 1) := by
                apply div_nonneg
                · apply mul_nonneg
                  · positivity
                  · have : (1 : ℚ) ≤ (m : ℚ) := by exact_mod_cast hm
                    linarith
                · positivity
              have hqle : ((k : ℚ) + 1) * ((m : ℚ) - 1) / ((remain : ℚ) + 1) ≤
                  ((m : ℤ) - 1 : ℤ) := by
                rw [div_le_iff₀ (by positivity)]
                have h1m : (1 : ℚ) ≤ (m : ℚ) := by exact_mod_cast hm
                have hk1 : (k : ℚ) + 1 ≤ (remain : ℚ) + 1 := by
                  have : (k : ℚ) ≤ (remain : ℚ) := by exact_mod_cast hkr.le
                  linarith
                have hcast : (((m : ℤ) - 1 : ℤ) : ℚ) = (m : ℚ) - 1 := by
                  push_cast; ring
                rw [hcast]
                nlinarith
              have hple := pyRound_le _ _ hqle
              have hp0 := pyRound_nonneg _ hq0
              have : (pyRound (((k : ℚ) + 1) * ((m : ℚ) - 1) / ((remain : ℚ) + 1))).toNat
                  ≤ ((m : ℤ) - 1).toNat := Int.toNat_le_toNat hple
              rw [← hka] at *
              omega
          rw [padWhile_stuck_none n2.toNat m acc0 hnd0 hsub0 (by omega) 2] at h
          simp at h

/-- The minimum clear spacing is always positive (at least 25 mm). -/
theorem minClearSpacing_pos (db : ℚ) (agg : Option ℚ) :
    0 < minClearSpacing db agg := by
  unfold minClearSpacing
  have h25 : (0 : ℚ) < max 25 db := lt_of_lt_of_le (by norm_num) (le_max_left _ _)
  match agg with
  | none => exact h25
  | some a =>
    by_cases ha : 0 < a
    · simp only [if_pos ha]
      exact lt_of_lt_of_le h25 (le_max_left _ _)
    · simp only [if_neg ha]
      exact h25

/-- The one-row capacity is never negative. -/
theorem maxBarsOneRow_nonneg (bi db s : ℚ) : 0 ≤ maxBarsOneRow bi db s := by
  unfold maxBarsOneRow
  split_ifs
  · exact le_refl 0
  · exact le_max_right _ _

/-- A positive one-row capacity forces a positive inside width. -/
theorem maxBarsOneRow_pos (bi db s : ℚ) (h : 1 ≤ maxBarsOneRow bi db s) :
    0 < bi := by
  by_contra hc
  push_neg at hc
  unfold maxBarsOneRow at h
  rw [if_pos hc] at h
  omega

/-- Up to the one-row capacity, the bars fit: the row-overflow test of
`symmetric_row_positions` cannot fire. -/
theorem row_fits (bi db s : ℚ) (n : ℤ) (hn : 1 ≤ n)
    (hcap : n ≤ maxBarsOneRow bi db s) (hdb : 0 < db) (hs : 0 < s) :
    ¬ EPSq < (n : ℚ) * db + ((n : ℚ) - 1) * s - bi := by
  have hbi : 0 < bi := by
    by_contra h
    push_neg at h
    unfold maxBarsOneRow at hcap
    rw [if_pos h] at hcap
    omega
  have hfl : n ≤ ⌊(bi + s) / (db + s)⌋ := by
    unfold maxBarsOneRow at hcap
    rw [if_neg (not_le.mpr hbi)] at hcap
    rcases le_max_iff.mp hcap with h | h
    · exact h
    · omega
  have hle : (n : ℚ) ≤ (bi + s) / (db + s) := Int.le_floor.mp hfl
  have hds : (0 : ℚ) < db + s := by linarith
  have hmul : (n : ℚ) * (db + s) ≤ bi + s := (le_div_iff₀ hds).mp hle
  intro hcon
  have heps : (0 : ℚ) < EPSq := by norm_num [EPSq]
  nlinarith

/-- Shape of the successful `symmetric_row_positions` run. -/
theorem symmetric_ok_of_fits (bi db s : ℚ) (n : ℤ)
    (h : ¬ EPSq < (n : ℚ) * db + ((n : ℚ) - 1) * s - bi) :
    symmetricRowPositions bi n db s =
      .ok ((List.range n.toNat).map
        (fun i : ℕ => (bi - ((n : ℚ) * db + ((n : ℚ) - 1) * s)) / 2 + db / 2 +
          (i : ℚ) * (db + s))) := by
  unfold symmetricRowPositions
  rw [if_neg h]

/-- The row-overflow error fires exactly when the required width exceeds
the inside width beyond tolerance. -/
theorem symmetric_err_iff (bi db s : ℚ) (n : ℤ) :
    (∃ e, symmetricRowPositions bi n db s = .error e) ↔
      EPSq < (n : ℚ) * db + ((n : ℚ) - 1) * s - bi := by
  unfold symmetricRowPositions
  by_cases h : EPSq < (n : ℚ) * db + ((n : ℚ) - 1) * s - bi
  · simp [h]
  · simp [h]

/-- Tension-face failure condition (a): the request does not fit in one
row and the first layer cannot host two bars. -/
def tenCondA (bInside : ℚ) (nT : ℤ) (dbT : ℚ) (agg : Option ℚ) : Prop :=
  maxBarsOneRow bInside dbT (minClearSpacing dbT agg) < nT ∧
  maxBarsOneRow bInside dbT (minClearSpacing dbT agg) < 2

/-- Tension-face failure condition (b): two layers are needed and the
second layer falls above the stirrup envelope. -/
def tenCondB (bInside insideYMin insideYMax : ℚ) (nT : ℤ) (dbT : ℚ)
    (agg : Option ℚ) : Prop :=
  maxBarsOneRow bInside dbT (minClearSpacing dbT agg) < nT ∧
  2 ≤ maxBarsOneRow bInside dbT (minClearSpacing dbT agg) ∧
  insideYMax + EPSq < insideYMin + dbT / 2 + dbT + 25 + dbT / 2

/-- Tension-face divergence condition: two layers are needed, they fit
vertically, but the second layer requests more than `max 3 cap` bars, on
which the index-padding loop never terminates. -/
def tenCondD (bInside insideYMin insideYMax : ℚ) (nT : ℤ) (dbT : ℚ)
    (agg : Option ℚ) : Prop :=
  maxBarsOneRow bInside dbT (minClearSpacing dbT agg) < nT ∧
  2 ≤ maxBarsOneRow bInside dbT (minClearSpacing dbT agg) ∧
  ¬ insideYMax + EPSq < insideYMin + dbT / 2 + dbT + 25 + dbT / 2 ∧
  4 ≤ nT - maxBarsOneRow bInside dbT (minClearSpacing dbT agg) ∧
  maxBarsOneRow bInside dbT (minClearSpacing dbT agg) <
    nT - maxBarsOneRow bInside dbT (minClearSpacing dbT agg)

/-- Classification of the tension-face stage for validated bar inputs
(at least two tension bars of positive diameter): it errs exactly on
conditions (a) or (b), diverges exactly on the padding-loop condition,
and returns bars otherwise. -/
theorem placeTensionBars_classify (bInside insideXMin insideYMin insideYMax : ℚ)
    (nT : ℤ) (dbT : ℚ) (agg : Option ℚ) (hT : 2 ≤ nT) (hdb : 0 < dbT) :
    ((∃ e, placeTensionBars bInside insideXMin insideYMin insideYMax nT dbT agg
        = .err e) ↔
      tenCondA bInside nT dbT agg ∨
        tenCondB bInside insideYMin insideYMax nT dbT agg) ∧
    (placeTensionBars bInside insideXMin insideYMin insideYMax nT dbT agg
        = .hang ↔
      tenCondD bInside insideYMin insideYMax nT dbT agg) ∧
    ((∃ bars, placeTensionBars bInside insideXMin insideYMin insideYMax nT dbT agg
        = .ok bars) ↔
      ¬ tenCondA bInside nT dbT agg ∧
        ¬ tenCondB bInside insideYMin insideYMax nT dbT agg ∧
        ¬ tenCondD bInside insideYMin insideYMax nT dbT agg) := by
  set s := minClearSpacing dbT agg with hs
  have hspos : 0 < s := minClearSpacing_pos dbT agg
  set cap := maxBarsOneRow bInside dbT s with hcap
  have hcap0 : 0 ≤ cap := maxBarsOneRow_nonneg _ _ _
  by_cases h1 : nT ≤ cap
  · -- one-row placement succeeds
    have hfits := row_fits bInside dbT s nT (by omega) h1 hdb hspos
    have hok : placeTensionBars bInside insideXMin insideYMin insideYMax nT dbT agg
        = .ok (((List.range nT.toNat).map
          (fun i : ℕ => (bInside - ((nT : ℚ) * dbT + ((nT : ℚ) - 1) * s)) / 2 +
            dbT / 2 + (i : ℚ) * (dbT + s))).map
          (fun x => ⟨insideXMin + x, insideYMin + dbT / 2, dbT, .tension, 1⟩)) := by
      simp only [placeTensionBars]
      rw [← hs, ← hcap, if_pos h1, symmetric_ok_of_fits bInside dbT s nT hfits]
    refine ⟨?_, ?_, ?_⟩
    · rw [hok]
      simp only [tenCondA, tenCondB, ← hs, ← hcap]
      constructor
      · rintro ⟨e, he⟩
        exact absurd he (by simp)
      · rintro (⟨hlt, _⟩ | ⟨hlt, _⟩) <;> omega
    · rw [hok]
      simp only [tenCondD, ← hs, ← hcap]
      constructor
      · intro he
        exact absurd he (by simp)
      · rintro ⟨hlt, _⟩
        omega
    · rw [hok]
      simp only [tenCondA, tenCondB, tenCondD, ← hs, ← hcap]
      constructor
      · intro _
        refine ⟨?_, ?_, ?_⟩ <;> rintro ⟨hlt, _⟩ <;> omega
      · intro _
        exact ⟨_, rfl⟩
  · push_neg at h1
    by_cases h2 : cap < 2
    · -- fewer than two bars fit the first layer
      have herr : placeTensionBars bInside insideXMin insideYMin insideYMax nT dbT agg
          = .err .minTwoBars := by
        simp only [placeTensionBars]
        rw [← hs, ← hcap, if_neg (not_le.mpr h1), if_pos h2]
      refine ⟨?_, ?_, ?_⟩
      · rw [herr]
        simp only [tenCondA, tenCondB, ← hs, ← hcap]
        constructor
        · intro _
          exact Or.inl ⟨h1, h2⟩
        · intro _
          exact ⟨.minTwoBars, rfl⟩
      · rw [herr]
        simp only [tenCondD, ← hs, ← hcap]
        constructor
        · intro he
          exact absurd he (by simp)
        · rintro ⟨_, hge, _⟩
          omega
      · rw [herr]
        simp only [tenCondA, tenCondB, tenCondD, ← hs, ← hcap]
        constructor
        · rintro ⟨bars, hb⟩
          exact absurd hb (by simp)
        · rintro ⟨hA, _, _⟩
          exact absurd ⟨h1, h2⟩ hA
    · push_neg at h2
      -- two-layer path, first layer holds `cap` bars
      have hfits := row_fits bInside dbT s cap (by omega) le_rfl hdb hspos
      have hxbot := symmetric_ok_of_fits bInside dbT s cap hfits
      set xBotRel : List ℚ := (List.range cap.toNat).map
        (fun i : ℕ => (bInside - ((cap : ℚ) * dbT + ((cap : ℚ) - 1) * s)) / 2 +
          dbT / 2 + (i : ℚ) * (dbT + s)) with hxbotrel
      have hxlen : (xBotRel.length : ℤ) = cap := by
        rw [hxbotrel]
        simp only [List.length_map, List.length_range]
        omega
      by_cases h3 : insideYMax + EPSq <
          insideYMin + dbT / 2 + dbT + 25 + dbT / 2
      · -- second layer does not fit vertically
        have herr : placeTensionBars bInside insideXMin insideYMin insideYMax nT dbT agg
            = .err .tensionVertical := by
          simp only [placeTensionBars]
          rw [← hs, ← hcap, if_neg (not_le.mpr h1), if_neg (not_lt.mpr h2), hxbot]
          dsimp only
          rw [if_pos h3]
        refine ⟨?_, ?_, ?_⟩
        · rw [herr]
          simp only [tenCondA, tenCondB, ← hs, ← hcap]
          exact ⟨fun _ => Or.inr ⟨h1, h2, h3⟩, fun _ => ⟨.tensionVertical, rfl⟩⟩
        · rw [herr]
          simp only [tenCondD, ← hs, ← hcap]
          constructor
          · intro he
            exact absurd he (by simp)
          · rintro ⟨_, _, hno, _⟩
            exact absurd h3 hno
        · rw [herr]
          simp only [tenCondA, tenCondB, tenCondD, ← hs, ← hcap]
          constructor
          · rintro ⟨bars, hb⟩
            exact absurd hb (by simp)
          · rintro ⟨_, hB, _⟩
            exact absurd ⟨h1, h2, h3⟩ hB
      · by_cases h4 : 4 ≤ nT - cap ∧ cap < nT - cap
        · -- padding loop diverges
          have hpick : pickSecondRowPositions xBotRel (nT - cap) = none := by
            rw [pick_none_iff xBotRel (nT - cap) (by omega) (by omega)]
            omega
          have hhang : placeTensionBars bInside insideXMin insideYMin insideYMax
              nT dbT agg = .hang := by
            simp only [placeTensionBars]
            rw [← hs, ← hcap, if_neg (not_le.mpr h1), if_neg (not_lt.mpr h2), hxbot]
            dsimp only
            rw [if_neg h3, hpick]
          refine ⟨?_, ?_, ?_⟩
          · rw [hhang]
            simp only [tenCondA, tenCondB, ← hs, ← hcap]
            constructor
            · rintro ⟨e, he⟩
              exact absurd he (by simp)
            · rintro (⟨_, hlt⟩ | ⟨_, _, hy⟩)
              · omega
              · exact absurd hy h3
          · rw [hhang]
            simp only [tenCondD, ← hs, ← hcap]
            exact ⟨fun _ => ⟨h1, h2, h3, h4.1, h4.2⟩, fun _ => trivial⟩
          · rw [hhang]
            simp only [tenCondA, tenCondB, tenCondD, ← hs, ← hcap]
            constructor
            · rintro ⟨bars, hb⟩
              exact absurd hb (by simp)
            · rintro ⟨_, _, hD⟩
              exact absurd ⟨h1, h2, h3, h4.1, h4.2⟩ hD
        · -- padding loop terminates and the second layer is emitted
          have hnone : ¬ pickSecondRowPositions xBotRel (nT - cap) = none := by
            rw [pick_none_iff xBotRel (nT - cap) (by omega) (by omega)]
            omega
          obtain ⟨x2pick, hx2⟩ :=
            Option.ne_none_iff_exists'.mp hnone
          have hx2len : x2pick.length = (nT - cap).toNat :=
            pick_some_length xBotRel (nT - cap) x2pick (by omega) (by omega) hx2
          have hok : placeTensionBars bInside insideXMin insideYMin insideYMax
              nT dbT agg = .ok
              ((xBotRel.map (fun x =>
                ⟨insideXMin + x, insideYMin + dbT / 2, dbT, .tension, 1⟩)) ++
               x2pick.map (fun x =>
                ⟨insideXMin + x, insideYMin + dbT / 2 + dbT + 25, dbT, .tension, 2⟩)) := by
            simp only [placeTensionBars]
            rw [← hs, ← hcap, if_neg (not_le.mpr h1), if_neg (not_lt.mpr h2), hxbot]
            dsimp only
            rw [if_neg h3, hx2]
            dsimp only
            rw [if_neg (by simp [hx2len])]
          refine ⟨?_, ?_, ?_⟩
          · rw [hok]
            simp only [tenCondA, tenCondB, ← hs, ← hcap]
            constructor
            · rintro ⟨e, he⟩
              exact absurd he (by simp)
            · rintro (⟨_, hlt⟩ | ⟨_, _, hy⟩)
              · omega
              · exact absurd hy h3
          · rw [hok]
            simp only [tenCondD, ← hs, ← hcap]
            constructor
            · intro he
              exact absurd he (by simp)
            · rintro ⟨_, _, _, hd4, hdm⟩
              exact absurd ⟨hd4, hdm⟩ h4
          · rw [hok]
            simp only [tenCondA, tenCondB, tenCondD, ← hs, ← hcap]
            refine ⟨fun _ => ⟨?_, ?_, ?_⟩, fun _ => ⟨_, rfl⟩⟩
            · rintro ⟨_, hlt⟩
              omega
            · rintro ⟨_, _, hy⟩
              exact absurd hy h3
            · rintro ⟨_, _, _, hd4, hdm⟩
              exact absurd ⟨hd4, hdm⟩ h4

/-- Compression-face failure condition: the request does not fit in one
row and the second layer falls below the stirrup envelope. -/
def compCondC (bInside insideYMin insideYMax : ℚ) (nC : ℤ) (dbC : ℚ)
    (agg : Option ℚ) : Prop :=
  maxBarsOneRow bInside dbC (minClearSpacing dbC agg) < nC ∧
  insideYMax - dbC / 2 - (dbC + 25) - dbC / 2 < insideYMin - EPSq

/-- Compression-face divergence condition: a second layer is needed and
fits vertically, at least one bar sits in the first layer, and the
second layer requests more than `max 3 capc` bars. -/
def compCondD (bInside insideYMin insideYMax : ℚ) (nC : ℤ) (dbC : ℚ)
    (agg : Option ℚ) : Prop :=
  maxBarsOneRow bInside dbC (minClearSpacing dbC agg) < nC ∧
  ¬ insideYMax - dbC / 2 - (dbC + 25) - dbC / 2 < insideYMin - EPSq ∧
  4 ≤ nC - maxBarsOneRow bInside dbC (minClearSpacing dbC agg) ∧
  1 ≤ maxBarsOneRow bInside dbC (minClearSpacing dbC agg) ∧
  maxBarsOneRow bInside dbC (minClearSpacing dbC agg) <
    nC - maxBarsOneRow bInside dbC (minClearSpacing dbC agg)

/-- Classification of the compression-face stage, reached with a
positive inside width, a positive bar count and a positive diameter:
it errs exactly on the vertical-overflow condition, diverges exactly on
the padding-loop condition, and returns bars otherwise (including, with
no length check, when the one-row capacity is zero). -/
theorem placeCompressionBars_classify
    (bInside insideXMin insideYMin insideYMax : ℚ)
    (nC : ℤ) (dbC : ℚ) (agg : Option ℚ)
    (hbi : 0 < bInside) (hnC : 1 ≤ nC) (hdb : 0 < dbC) :
    ((∃ e, placeCompressionBars bInside insideXMin insideYMin insideYMax nC dbC agg
        = .err e) ↔ compCondC bInside insideYMin insideYMax nC dbC agg) ∧
    (placeCompressionBars bInside insideXMin insideYMin insideYMax nC dbC agg
        = .hang ↔ compCondD bInside insideYMin insideYMax nC dbC agg) ∧
    ((∃ bars, placeCompressionBars bInside insideXMin insideYMin insideYMax nC dbC agg
        = .ok bars) ↔
      ¬ compCondC bInside insideYMin insideYMax nC dbC agg ∧
        ¬ compCondD bInside insideYMin insideYMax nC dbC agg) := by
  set s := minClearSpacing dbC agg with hs
  have hspos : 0 < s := minClearSpacing_pos dbC agg
  set capc := maxBarsOneRow bInside dbC s with hcap
  have hcap0 : 0 ≤ capc := maxBarsOneRow_nonneg _ _ _
  by_cases h1 : nC ≤ capc
  · -- one-row placement succeeds
    have hfits := row_fits bInside dbC s nC (by omega) h1 hdb hspos
    have hok : placeCompressionBars bInside insideXMin insideYMin insideYMax nC dbC agg
        = .ok (((List.range nC.toNat).map
          (fun i : ℕ => (bInside - ((nC : ℚ) * dbC + ((nC : ℚ) - 1) * s)) / 2 +
            dbC / 2 + (i : ℚ) * (dbC + s))).map
          (fun x => ⟨insideXMin + x, insideYMax - dbC / 2, dbC, .compression, 1⟩)) := by
      simp only [placeCompressionBars]
      rw [← hs, ← hcap, if_pos h1, symmetric_ok_of_fits bInside dbC s nC hfits]
    refine ⟨?_, ?_, ?_⟩
    · rw [hok]
      simp only [compCondC, ← hs, ← hcap]
      constructor
      · rintro ⟨e, he⟩
        exact absurd he (by simp)
      · rintro ⟨hlt, _⟩
        omega
    · rw [hok]
      simp only [compCondD, ← hs, ← hcap]
      constructor
      · intro he
        exact absurd he (by simp)
      · rintro ⟨hlt, _⟩
        omega
    · rw [hok]
      simp only [compCondC, compCondD, ← hs, ← hcap]
      refine ⟨fun _ => ⟨?_, ?_⟩, fun _ => ⟨_, rfl⟩⟩
      · rintro ⟨hlt, _⟩
        omega
      · rintro ⟨hlt, _⟩
        omega
  · push_neg at h1
    -- two-layer path; the first-layer row never errs here
    have hfits : ¬ EPSq < (capc : ℚ) * dbC + ((capc : ℚ) - 1) * s - bInside := by
      rcases eq_or_lt_of_le hcap0 with hz | hpos

      · rw [← hz]
        push_cast
        intro hcon
        have : (0 : ℚ) < EPSq := by norm_num [EPSq]
        nlinarith
      · exact row_fits bInside dbC s capc (by omega) le_rfl hdb hspos
    have hxtop := symmetric_ok_of_fits bInside dbC s capc hfits
    set xTopRel : List ℚ := (List.range capc.toNat).map
      (fun i : ℕ => (bInside - ((capc : ℚ) * dbC + ((capc : ℚ) - 1) * s)) / 2 +
        dbC / 2 + (i : ℚ) * (dbC + s)) with hxtoprel
    have hxlen : (xTopRel.length : ℤ) = capc := by
      rw [hxtoprel]
      simp only [List.length_map, List.length_range]
      omega
    by_cases h3 : insideYMax - dbC / 2 - (dbC + 25) - dbC / 2 < insideYMin - EPSq
    · -- second layer does not fit vertically
      have herr : placeCompressionBars bInside insideXMin insideYMin insideYMax
          nC dbC agg = .err .compressionVertical := by
        simp only [placeCompressionBars]
        rw [← hs, ← hcap, if_neg (not_le.mpr h1), hxtop]
        dsimp only
        rw [if_pos (by linarith)]
      refine ⟨?_, ?_, ?_⟩
      · rw [herr]
        simp only [compCondC, ← hs, ← hcap]
        exact ⟨fun _ => ⟨h1, h3⟩, fun _ => ⟨.compressionVertical, rfl⟩⟩
      · rw [herr]
        simp only [compCondD, ← hs, ← hcap]
        constructor
        · intro he
          exact absurd he (by simp)
        · rintro ⟨_, hno, _⟩
          exact absurd h3 hno
      · rw [herr]
        simp only [compCondC, compCondD, ← hs, ← hcap]
        constructor
        · rintro ⟨bars, hb⟩
          exact absurd hb (by simp)
        · rintro ⟨hC, _⟩
          exact absurd ⟨h1, h3⟩ hC
    · rcases eq_or_lt_of_le hcap0 with hz | hpos
      · -- zero one-row capacity: empty first layer, selection returns []
        have hempty : xTopRel = [] := by
          rw [hxtoprel, ← hz]
          simp
        have hpick : pickSecondRowPositions xTopRel (nC - capc) = some [] := by
          rw [hempty]
          unfold pickSecondRowPositions
          simp
        have hok : placeCompressionBars bInside insideXMin insideYMin insideYMax
            nC dbC agg = .ok [] := by
          simp only [placeCompressionBars]
          rw [← hs, ← hcap, if_neg (not_le.mpr h1), hxtop]
          dsimp only
          rw [if_neg (by linarith), hpick]
          dsimp only
          rw [hempty]
          simp
        refine ⟨?_, ?_, ?_⟩
        · rw [hok]
          simp only [compCondC, ← hs, ← hcap]
          constructor
          · rintro ⟨e, he⟩
            exact absurd he (by simp)
          · rintro ⟨_, hy⟩
            exact absurd hy h3
        · rw [hok]
          simp only [compCondD, ← hs, ← hcap]
          constructor
          · intro he
            exact absurd he (by simp)
          · rintro ⟨_, _, _, hone, _⟩
            omega
        · rw [hok]
          simp only [compCondC, compCondD, ← hs, ← hcap]
          refine ⟨fun _ => ⟨?_, ?_⟩, fun _ => ⟨_, rfl⟩⟩
          · rintro ⟨_, hy⟩
            exact absurd hy h3
          · rintro ⟨_, _, _, hone, _⟩
            omega
      · by_cases h4 : 4 ≤ nC - capc ∧ capc < nC - capc
        · -- padding loop diverges
          have hpick : pickSecondRowPositions xTopRel (nC - capc) = none := by
            rw [pick_none_iff xTopRel (nC - capc) (by omega) (by omega)]
            omega
          have hhang : placeCompressionBars bInside insideXMin insideYMin insideYMax
              nC dbC agg = .hang := by
            simp only [placeCompressionBars]
            rw [← hs, ← hcap, if_neg (not_le.mpr h1), hxtop]
            dsimp only
            rw [if_neg (by linarith), hpick]
          refine ⟨?_, ?_, ?_⟩
          · rw [hhang]
            simp only [compCondC, ← hs, ← hcap]
            constructor
            · rintro ⟨e, he⟩
              exact absurd he (by simp)
            · rintro ⟨_, hy⟩
              exact absurd hy h3
          · rw [hhang]
            simp only [compCondD, ← hs, ← hcap]
            exact ⟨fun _ => ⟨h1, h3, h4.1, by omega, h4.2⟩, fun _ => trivial⟩
          · rw [hhang]
            simp only [compCondC, compCondD, ← hs, ← hcap]
            constructor
            · rintro ⟨bars, hb⟩
              exact absurd hb (by simp)
            · rintro ⟨_, hD⟩
              exact absurd ⟨h1, h3, h4.1, by omega, h4.2⟩ hD
        · -- padding loop terminates; no selection-length check here
          have hnone : ¬ pickSecondRowPositions xTopRel (nC - capc) = none := by
            rw [pick_none_iff xTopRel (nC - capc) (by omega) (by omega)]
            omega
          obtain ⟨x2pick, hx2⟩ := Option.ne_none_iff_exists'.mp hnone
          have hok : placeCompressionBars bInside insideXMin insideYMin insideYMax
              nC dbC agg = .ok
              ((xTopRel.map (fun x =>
                ⟨insideXMin + x, insideYMax - dbC / 2, dbC, .compression, 1⟩)) ++
               x2pick.map (fun x =>
                ⟨insideXMin + x, insideYMax - dbC / 2 - (dbC + 25), dbC,
                  .compression, 2⟩)) := by
            simp only [placeCompressionBars]
            rw [← hs, ← hcap, if_neg (not_le.mpr h1), hxtop]
            dsimp only
            rw [if_neg (by linarith), hx2]
          refine ⟨?_, ?_, ?_⟩
          · rw [hok]
            simp only [compCondC, ← hs, ← hcap]
            constructor
            · rintro ⟨e, he⟩
              exact absurd he (by simp)
            · rintro ⟨_, hy⟩
              exact absurd hy h3
          · rw [hok]
            simp only [compCondD, ← hs, ← hcap]
            constructor
            · intro he
              exact absurd he (by simp)
            · rintro ⟨_, _, hd4, _, hdm⟩
              exact absurd ⟨hd4, hdm⟩ h4
          · rw [hok]
            simp only [compCondC, compCondD, ← hs, ← hcap]
            refine ⟨fun _ => ⟨?_, ?_⟩, fun _ => ⟨_, rfl⟩⟩
            · rintro ⟨_, hy⟩
              exact absurd hy h3
            · rintro ⟨_, _, hd4, _, hdm⟩
              exact absurd ⟨hd4, hdm⟩ h4

/-- A successful tension stage needs a positive inside width. -/
theorem placeTensionBars_ok_pos (bInside insideXMin insideYMin insideYMax : ℚ)
    (nT : ℤ) (dbT : ℚ) (agg : Option ℚ) (bars : List BarQ)
    (hT : 2 ≤ nT) (hdb : 0 < dbT)
    (h : placeTensionBars bInside insideXMin insideYMin insideYMax nT dbT agg
      = .ok bars) : 0 < bInside := by
  by_contra hbi
  push_neg at hbi
  have hcap : maxBarsOneRow bInside dbT (minClearSpacing dbT agg) = 0 := by
    unfold maxBarsOneRow
    rw [if_pos hbi]
  have hA : tenCondA bInside nT dbT agg := by
    unfold tenCondA
    omega
  obtain ⟨e, he⟩ :=
    (placeTensionBars_classify bInside insideXMin insideYMin insideYMax
      nT dbT agg hT hdb).1.mpr (Or.inl hA)
  rw [h] at he
  exact absurd he (by simp)

/-- Condition (a) of the spec at the `place_bars` interface: single-row
overflow with a first layer that cannot host two bars. -/
def placeCondA (width cover stirrupDia : ℚ) (nT : ℤ) (dbT : ℚ)
    (agg : Option ℚ) : Prop :=
  tenCondA (width - cover - stirrupDia - (cover + stirrupDia)) nT dbT agg

/-- Condition (b) of the spec at the `place_bars` interface: tension
second layer outside the stirrup envelope. -/
def placeCondB (width height cover stirrupDia : ℚ) (nT : ℤ) (dbT : ℚ)
    (agg : Option ℚ) : Prop :=
  tenCondB (width - cover - stirrupDia - (cover + stirrupDia))
    (cover + stirrupDia) (height - cover - stirrupDia) nT dbT agg

/-- Divergence condition at the `place_bars` interface for the tension
face: the second-layer padding loop never terminates. -/
def placeCondDt (width height cover stirrupDia : ℚ) (nT : ℤ) (dbT : ℚ)
    (agg : Option ℚ) : Prop :=
  tenCondD (width - cover - stirrupDia - (cover + stirrupDia))
    (cover + stirrupDia) (height - cover - stirrupDia) nT dbT agg

/-- Condition (c) of the spec at the `place_bars` interface: compression
face active and its second layer outside the stirrup envelope. -/
def placeCondC (width height cover stirrupDia : ℚ) (nC : ℤ)
    (dbC : Option ℚ) (agg : Option ℚ) : Prop :=
  0 < nC ∧ ∃ v, dbC = some v ∧ 0 < v ∧
    compCondC (width - cover - stirrupDia - (cover + stirrupDia))
      (cover + stirrupDia) (height - cover - stirrupDia) nC v agg

/-- Divergence condition at the `place_bars` interface for the
compression face. -/
def placeCondDc (width height cover stirrupDia : ℚ) (nC : ℤ)
    (dbC : Option ℚ) (agg : Option ℚ) : Prop :=
  0 < nC ∧ ∃ v, dbC = some v ∧ 0 < v ∧
    compCondD (width - cover - stirrupDia - (cover + stirrupDia))
      (cover + stirrupDia) (height - cover - stirrupDia) nC v agg

/-- Full control-flow characterization of `place_bars` for validated bar
inputs (at least two tension bars of positive diameter): a `ValueError`
is raised exactly on single-row overflow with capacity below two, on
tension-layer vertical overflow, or on compression-layer vertical
overflow (the latter only when the tension padding loop terminates); a
`PlacementResult` is returned exactly when, additionally, neither
padding loop diverges. -/
theorem placeBars_outcome_characterization
    (width height cover stirrupDia : ℚ) (nT : ℤ) (dbT : ℚ)
    (nC : ℤ) (dbC : Option ℚ) (agg : Option ℚ)
    (hT : 2 ≤ nT) (hdb : 0 < dbT) :
    ((∃ e, placeBars width height cover stirrupDia nT dbT nC dbC agg = .err e) ↔
      placeCondA width cover stirrupDia nT dbT agg ∨
      placeCondB width height cover stirrupDia nT dbT agg ∨
      (¬ placeCondDt width height cover stirrupDia nT dbT agg ∧
        placeCondC width height cover stirrupDia nC dbC agg)) ∧
    ((∃ r, placeBars width height cover stirrupDia nT dbT nC dbC agg = .ok r) ↔
      ¬ placeCondA width cover stirrupDia nT dbT agg ∧
      ¬ placeCondB width height cover stirrupDia nT dbT agg ∧
      ¬ placeCondDt width height cover stirrupDia nT dbT agg ∧
      ¬ placeCondC width height cover stirrupDia nC dbC agg ∧
      ¬ placeCondDc width height cover stirrupDia nC dbC agg) := by
  obtain ⟨hTerr, hThang, hTok⟩ :=
    placeTensionBars_classify (width - cover - stirrupDia - (cover + stirrupDia))
      (cover + stirrupDia) (cover + stirrupDia) (height - cover - stirrupDia)
      nT dbT agg hT hdb
  simp only [placeCondA, placeCondB, placeCondDt, placeCondC, placeCondDc]
  cases htr : placeTensionBars (width - cover - stirrupDia - (cover + stirrupDia))
      (cover + stirrupDia) (cover + stirrupDia) (height - cover - stirrupDia)
      nT dbT agg with
  | err e =>
    have hAB : tenCondA (width - cover - stirrupDia - (cover + stirrupDia)) nT dbT agg ∨
        tenCondB (width - cover - stirrupDia - (cover + stirrupDia))
          (cover + stirrupDia) (height - cover - stirrupDia) nT dbT agg :=
      hTerr.mp ⟨e, htr⟩
    have hpb : placeBars width height cover stirrupDia nT dbT nC dbC agg = .err e := by
      simp only [placeBars]
      rw [htr]
    constructor
    · rw [hpb]
      exact ⟨fun _ => hAB.imp id Or.inl, fun _ => ⟨e, rfl⟩⟩
    · rw [hpb]
      constructor
      · rintro ⟨r, hr⟩
        exact absurd hr (by simp)
      · rintro ⟨hA, hB, _⟩
        rcases hAB with h | h
        · exact absurd h hA
        · exact absurd h hB
  | hang =>
    have hD : tenCondD (width - cover - stirrupDia - (cover + stirrupDia))
        (cover + stirrupDia) (height - cover - stirrupDia) nT dbT agg :=
      hThang.mp htr
    have hpb : placeBars width height cover stirrupDia nT dbT nC dbC agg = .hang := by
      simp only [placeBars]
      rw [htr]
    obtain ⟨hd1, hd2, hd3, hd4, hd5⟩ := hD
    constructor
    · rw [hpb]
      constructor
      · rintro ⟨e, he⟩
        exact absurd he (by simp)
      · rintro (hA | hB | ⟨hnD, _⟩)
        · obtain ⟨_, h2⟩ := hA
          omega
        · exact absurd hB.2.2 hd3
        · exact absurd ⟨hd1, hd2, hd3, hd4, hd5⟩ hnD
    · rw [hpb]
      constructor
      · rintro ⟨r, hr⟩
        exact absurd hr (by simp)
      · rintro ⟨_, _, hnD, _, _⟩
        exact absurd ⟨hd1, hd2, hd3, hd4, hd5⟩ hnD
  | ok tBars =>
    have hnABD := hTok.mp ⟨tBars, htr⟩
    obtain ⟨hnA, hnB, hnD⟩ := hnABD
    have hbi : 0 < width - cover - stirrupDia - (cover + stirrupDia) :=
      placeTensionBars_ok_pos _ _ _ _ _ _ _ _ hT hdb htr
    by_cases hnc : 0 < nC
    · cases dbC with
      | none =>
        have hpb : placeBars width height cover stirrupDia nT dbT nC none agg
            = .ok ⟨tBars ++ [], ⟨cover + stirrupDia, cover + stirrupDia,
              width - cover - stirrupDia, height - cover - stirrupDia⟩⟩ := by
          simp only [placeBars]
          rw [htr]
          dsimp only
          rw [if_pos hnc]
        constructor
        · rw [hpb]
          constructor
          · rintro ⟨e, he⟩
            exact absurd he (by simp)
          · rintro (hA | hB | ⟨_, _, v, hv, _⟩)
            · exact absurd hA hnA
            · exact absurd hB hnB
            · exact absurd hv (by simp)
        · rw [hpb]
          refine ⟨fun _ => ⟨hnA, hnB, hnD, ?_, ?_⟩, fun _ => ⟨_, rfl⟩⟩
          · rintro ⟨_, v, hv, _⟩
            exact absurd hv (by simp)
          · rintro ⟨_, v, hv, _⟩
            exact absurd hv (by simp)
      | some v =>
        by_cases hv : 0 < v
        · obtain ⟨hCerr, hChang, hCok⟩ :=
            placeCompressionBars_classify
              (width - cover - stirrupDia - (cover + stirrupDia))
              (cover + stirrupDia) (cover + stirrupDia)
              (height - cover - stirrupDia) nC v agg hbi (by omega) hv
          cases hcr : placeCompressionBars
              (width - cover - stirrupDia - (cover + stirrupDia))
              (cover + stirrupDia) (cover + stirrupDia)
              (height - cover - stirrupDia) nC v agg with
          | err e =>
            have hC := hCerr.mp ⟨e, hcr⟩
            have hpb : placeBars width height cover stirrupDia nT dbT nC (some v) agg
                = .err e := by
              simp only [placeBars]
              rw [htr]
              dsimp only
              rw [if_pos hnc, if_pos hv, hcr]
            constructor
            · rw [hpb]
              exact ⟨fun _ => Or.inr (Or.inr ⟨fun hD => absurd hD hnD,
                hnc, v, rfl, hv, hC⟩), fun _ => ⟨e, rfl⟩⟩
            · rw [hpb]
              constructor
              · rintro ⟨r, hr⟩
                exact absurd hr (by simp)
              · rintro ⟨_, _, _, hnC2, _⟩
                exact absurd ⟨hnc, v, rfl, hv, hC⟩ hnC2
          | hang =>
            have hDc := hChang.mp hcr
            have hpb : placeBars width height cover stirrupDia nT dbT nC (some v) agg
                = .hang := by
              simp only [placeBars]
              rw [htr]
              dsimp only
              rw [if_pos hnc, if_pos hv, hcr]
            constructor
            · rw [hpb]
              constructor
              · rintro ⟨e, he⟩
                exact absurd he (by simp)
              · rintro (hA | hB | ⟨_, _, v2, hv2, _, hC⟩)
                · exact absurd hA hnA
                · exact absurd hB hnB
                · have hvv : v2 = v := (Option.some_inj.mp hv2).symm
                  subst hvv
                  exact absurd hC.2 hDc.2.1
            · rw [hpb]
              constructor
              · rintro ⟨r, hr⟩
                exact absurd hr (by simp)
              · rintro ⟨_, _, _, _, hnDc⟩
                exact absurd ⟨hnc, v, rfl, hv, hDc⟩ hnDc
          | ok cBars =>
            have hnCDc := hCok.mp ⟨cBars, hcr⟩
            obtain ⟨hnCc, hnDcc⟩ := hnCDc
            have hpb : placeBars width height cover stirrupDia nT dbT nC (some v) agg
                = .ok ⟨tBars ++ cBars, ⟨cover + stirrupDia, cover + stirrupDia,
                  width - cover - stirrupDia, height - cover - stirrupDia⟩⟩ := by
              simp only [placeBars]
              rw [htr]
              dsimp only
              rw [if_pos hnc, if_pos hv, hcr]
            constructor
            · rw [hpb]
              constructor
              · rintro ⟨e, he⟩
                exact absurd he (by simp)
              · rintro (hA | hB | ⟨_, _, v2, hv2, _, hC⟩)
                · exact absurd hA hnA
                · exact absurd hB hnB
                · have hvv : v2 = v := (Option.some_inj.mp hv2).symm
                  subst hvv
                  exact absurd hC hnCc
            · rw [hpb]
              refine ⟨fun _ => ⟨hnA, hnB, hnD, ?_, ?_⟩, fun _ => ⟨_, rfl⟩⟩
              · rintro ⟨_, v2, hv2, hv20, hC⟩
                have hvv : v2 = v := (Option.some_inj.mp hv2).symm
                subst hvv
                exact absurd hC hnCc
              · rintro ⟨_, v2, hv2, hv20, hDc⟩
                have hvv : v2 = v := (Option.some_inj.mp hv2).symm
                subst hvv
                exact absurd hDc hnDcc
        · have hpb : placeBars width height cover stirrupDia nT dbT nC (some v) agg
              = .ok ⟨tBars ++ [], ⟨cover + stirrupDia, cover + stirrupDia,
                width - cover - stirrupDia, height - cover - stirrupDia⟩⟩ := by
            simp only [placeBars]
            rw [htr]
            dsimp only
            rw [if_pos hnc, if_neg hv]
          constructor
          · rw [hpb]
            constructor
            · rintro ⟨e, he⟩
              exact absurd he (by simp)
            · rintro (hA | hB | ⟨_, _, v2, hv2, hv20, _⟩)
              · exact absurd hA hnA
              · exact absurd hB hnB
              · have hvv : v2 = v := (Option.some_inj.mp hv2).symm
                subst hvv
                exact absurd hv20 hv
          · rw [hpb]
            refine ⟨fun _ => ⟨hnA, hnB, hnD, ?_, ?_⟩, fun _ => ⟨_, rfl⟩⟩
            · rintro ⟨_, v2, hv2, hv20, _⟩
              have hvv : v2 = v := (Option.some_inj.mp hv2).symm
              subst hvv
              exact absurd hv20 hv
            · rintro ⟨_, v2, hv2, hv20, _⟩
              have hvv : v2 = v := (Option.some_inj.mp hv2).symm
              subst hvv
              exact absurd hv20 hv
    · have hpb : placeBars width height cover stirrupDia nT dbT nC dbC agg
          = .ok ⟨tBars ++ [], ⟨cover + stirrupDia, cover + stirrupDia,
            width - cover - stirrupDia, height - cover - stirrupDia⟩⟩ := by
        simp only [placeBars]
        rw [htr]
        dsimp only
        rw [if_neg hnc]
      constructor
      · rw [hpb]
        constructor
        · rintro ⟨e, he⟩
          exact absurd he (by simp)
        · rintro (hA | hB | ⟨_, hncC, _⟩)
          · exact absurd hA hnA
          · exact absurd hB hnB
          · exact absurd hncC hnc
      · rw [hpb]
        refine ⟨fun _ => ⟨hnA, hnB, hnD, ?_, ?_⟩, fun _ => ⟨_, rfl⟩⟩
        · rintro ⟨hncC, _⟩
          exact absurd hncC hnc
        · rintro ⟨hncC, _⟩
          exact absurd hncC hnc


/-- C3.  The placement engine can return a `PlacementResult` whose
compression-bar count differs from the requested count: with width 170,
height 600, cover 40, stirrup 10, two 20 mm tension bars and one
requested 100 mm compression bar, the compression one-row capacity is 0,
the second-layer selection over an empty first layer returns the empty
list, and — unlike the tension face — no selection-length check guards
the result, so the engine returns zero compression bars. -/
theorem c3_compression_count_mismatch :
    countRole (placeBars 170 600 40 10 2 20 1 (some 100) none) .compression = 0 ∧
    (∃ r, placeBars 170 600 40 10 2 20 1 (some 100) none = .ok r) := by
  constructor
  · rw [c3_place_eval]
    simp [countRole]
  · exact ⟨_, c3_place_eval⟩

/-- C9.  The second-layer index-padding loop of
`pick_second_row_positions` does not terminate once every first-layer
index is selected and the request is still unfilled: for width 200,
height 400, cover 25, stirrup 10 and seven 25 mm tension bars the first
layer holds 3 bars, the second layer requests 4, the selection saturates
at `[0, 1, 2]`, and the `while` loop runs forever (no fuel suffices). -/
theorem c9_padding_loop_never_terminates :
    placeBars 200 400 25 10 7 25 0 none none = .hang ∧
    ∀ fuel, padWhile 4 3 fuel [0, 1, 2] = none := by
  refine ⟨c9_place_hang_eval, ?_⟩
  intro fuel
  apply padWhile_none_of_stuck
  · decide
  · decide

/-- C4 counterexample.  On the divergent input of the padding loop, none
of the three geometric impossibilities of the claim holds, yet the
engine neither raises nor returns: the claimed dichotomy fails. -/
theorem c4_counterexample_no_return_no_raise :
    (∀ e, placeBars 200 400 25 10 7 25 0 none none ≠ .err e) ∧
    (∀ r, placeBars 200 400 25 10 7 25 0 none none ≠ .ok r) ∧
    ¬ (placeCondA 200 25 10 7 25 none ∨
       placeCondB 200 400 25 10 7 25 none ∨
       placeCondC 200 400 25 10 0 none none) := by
  refine ⟨?_, ?_, ?_⟩
  · intro e he
    rw [c9_place_hang_eval] at he
    exact absurd he (by simp)
  · intro r hr
    rw [c9_place_hang_eval] at hr
    exact absurd hr (by simp)
  · rintro (⟨_, h⟩ | ⟨_, _, h⟩ | ⟨h, _⟩)
    · norm_num [maxBarsOneRow, minClearSpacing] at h
    · norm_num [EPSq] at h
    · exact absurd h (by norm_num)

/-- C4 amended.  For validated bar inputs (at least two tension bars of
positive diameter), the placement engine raises `InfeasibleGeometry`
exactly when single-row overflow meets a first-layer capacity below two,
when the tension second layer falls outside the stirrup envelope, or
when (the tension padding loop terminating) the compression second layer
falls outside the envelope; and it returns a `PlacementResult` exactly
when, in addition, neither second-layer padding loop diverges. -/
theorem c4_amended_raises_iff
    (width height cover stirrupDia : ℚ) (nT : ℤ) (dbT : ℚ)
    (nC : ℤ) (dbC : Option ℚ) (agg : Option ℚ)
    (hT : 2 ≤ nT) (hdb : 0 < dbT) :
    ((∃ e, placeBars width height cover stirrupDia nT dbT nC dbC agg = .err e) ↔
      placeCondA width cover stirrupDia nT dbT agg ∨
      placeCondB width height cover stirrupDia nT dbT agg ∨
      (¬ placeCondDt width height cover stirrupDia nT dbT agg ∧
        placeCondC width height cover stirrupDia nC dbC agg)) ∧
    ((∃ r, placeBars width height cover stirrupDia nT dbT nC dbC agg = .ok r) ↔
      ¬ placeCondA width cover stirrupDia nT dbT agg ∧
      ¬ placeCondB width height cover stirrupDia nT dbT agg ∧
      ¬ placeCondDt width height cover stirrupDia nT dbT agg ∧
      ¬ placeCondC width height cover stirrupDia nC dbC agg ∧
      ¬ placeCondDc width height cover stirrupDia nC dbC agg) :=
  placeBars_outcome_characterization width height cover stirrupDia
    nT dbT nC dbC agg hT hdb

/-- Witness for the amended C4 theorem at the benchmark input. -/
theorem c4_amended_raises_iff_witness :
    (2 : ℤ) ≤ 4 ∧ (0 : ℚ) < 20 ∧
    ((∃ r, placeBars 300 500 40 10 4 20 0 none none = .ok r) ↔
      ¬ placeCondA 300 40 10 4 20 none ∧
      ¬ placeCondB 300 500 40 10 4 20 none ∧
      ¬ placeCondDt 300 500 40 10 4 20 none ∧
      ¬ placeCondC 300 500 40 10 0 none none ∧
      ¬ placeCondDc 300 500 40 10 0 none none) :=
  ⟨by norm_num, by norm_num,
    (c4_amended_raises_iff 300 500 40 10 4 20 0 none none
      (by norm_num) (by norm_num)).2⟩

/-!
Flexural capacity solver (`calc_flexure`), embedded over the reals with
`Real.pi` for `math.pi`.  Conditions on reals are classical, so these
definitions are noncomputable; concrete runs are evaluated by the
lemmas below.  The float `NaN` produced by `centroid_of_role` on empty
steel is embedded as the junk value 0 — every claim that touches a
degenerate centroid handles the degeneracy through the reporting layer
(`J.num FVal.nan`) instead.
-/

open scoped Classical

/-- Mirror of the `Bar` dataclass as consumed by the strength
calculations (real-valued, so that the virtual minimum-steel bar of the
pipeline, whose diameter is a square root, is representable). -/
structure BarR where
  x_mm : ℝ
  y_mm : ℝ
  dia_mm : ℝ
  role : Role
  layer : ℤ

/-- Cast a placed bar into the real-valued strength world. -/
def barQtoR (b : BarQ) : BarR :=
  ⟨(b.x_mm : ℝ), (b.y_mm : ℝ), (b.dia_mm : ℝ), b.role, b.layer⟩

/-- Module constant `EPS = 1e-9` (real-valued uses). -/
noncomputable def EPS : ℝ := 1 / 1000000000

/-- Mirror of `area_of_bar`. -/
noncomputable def areaOfBar (d : ℝ) : ℝ := Real.pi * d ^ 2 / 4

/-- Mirror of `beta1_of_fc`. -/
noncomputable def beta1OfFc (fc : ℝ) : ℝ :=
  if fc ≤ 28 then 0.85
  else max (0.85 - 0.05 * ((fc - 28) / 7)) 0.65

/-- Mirror of `phi_flexure_from_strain`. -/
noncomputable def phiFlexureFromStrain (eps_t : ℝ) : ℝ :=
  if eps_t ≤ 0.002 then 0.65
  else if 0.005 ≤ eps_t then 0.90
  else 0.65 + (eps_t - 0.002) * (0.90 - 0.65) / (0.005 - 0.002)

/-- Mirror of `sum_area`. -/
noncomputable def sumArea (bars : List BarR) (r : Role) : ℝ :=
  ((bars.filter (fun b => b.role = r)).map (fun b => areaOfBar b.dia_mm)).sum

/-- Mirror of `centroid_of_role`; the source returns `NaN` on
near-zero steel area, embedded here as the junk value 0. -/
noncomputable def centroidOfRole (bars : List BarR) (r : Role) : ℝ :=
  let asTotal := sumArea bars r
  let yAs := ((bars.filter (fun b => b.role = r)).map
    (fun b => areaOfBar b.dia_mm * b.y_mm)).sum
  if asTotal < EPS then 0 else yAs / asTotal

/-- The section-level quantities `calc_flexure` derives before the
equilibrium iteration. -/
structure FlexParams where
  b : ℝ
  h : ℝ
  fc : ℝ
  fy : ℝ
  beta1 : ℝ
  AsT : ℝ
  AsC : ℝ
  d : ℝ
  dPrime : Option ℝ

/-- Derivation of the section-level quantities (`beta1`, steel areas and
centroids, `d`, `d_prime`) from the inputs of `calc_flexure`. -/
noncomputable def flexParams (b h fc fy : ℝ) (bars : List BarR) : FlexParams :=
  let AsT := sumArea bars .tension
  let AsC := sumArea bars .compression
  let yT := centroidOfRole bars .tension
  let yC := centroidOfRole bars .compression
  { b := b, h := h, fc := fc, fy := fy, beta1 := beta1OfFc fc,
    AsT := AsT, AsC := AsC, d := h - yT,
    dPrime := if EPS < AsC then some (h - yC) else none }

/-- Mirror of the inner `fs_of_c`: tension-steel stress at neutral-axis
depth `c` under the given yield assumption. -/
noncomputable def fsOfC (p : FlexParams) (c : ℝ) (assumeYield : Bool) : ℝ :=
  if assumeYield then p.fy
  else max (min (600 * (p.d - c) / max c EPS) p.fy) (-p.fy)

/-- Mirror of the inner `fsp_of_c`: compression-steel stress at `c`
under the given yield assumption (0 when there is no compression
steel). -/
noncomputable def fspOfC (p : FlexParams) (c : ℝ) (assumeYield : Bool) : ℝ :=
  match p.dPrime with
  | none => 0
  | some dp =>
    if assumeYield then p.fy
    else max (min (600 * (c - dp) / max c EPS) p.fy) (-p.fy)

/-- Mirror of `inside_block`: whether the equivalent compression block
of depth `beta1 * c` reaches the compression steel. -/
def insideBlockAt (p : FlexParams) (c : ℝ) : Prop :=
  match p.dPrime with
  | none => False
  | some dp => dp ≤ p.beta1 * c + 1 / 1000000000

/-- Mirror of the inner `residual`: total compression minus total
tension at `c` under the case assumptions. -/
noncomputable def residualR (p : FlexParams) (ytB ycB : Bool) (c : ℝ) : ℝ :=
  let a := p.beta1 * c
  let fs := fsOfC p c ytB
  let fsp := if insideBlockAt p c then fspOfC p c ycB else 0
  let Cc := 0.85 * p.fc * p.b * a
  let T := p.AsT * fs
  let termComp := if insideBlockAt p c then p.AsC * (fsp - 0.85 * p.fc) else 0
  Cc + termComp - T

/-- The bisection loop (`for _ in range(100)`) of `solve_for_case`,
fuel-indexed; the Boolean records whether it exited through the
`abs(R_mid) < 1e-3` tolerance test (`True`) or by exhausting its
iterations (`False`, returning the last midpoint). -/
noncomputable def bisectGo (R : ℝ → ℝ) : ℕ → ℝ → ℝ → ℝ → ℝ → ℝ × Bool
  | 0, _, _, _, last => (last, false)
  | fuel + 1, lo, hi, Rlo, _ =>
    let mid := (lo + hi) / 2
    let Rmid := R mid
    if |Rmid| < 1 / 1000 then (mid, true)
    else if 0 < Rlo * Rmid then bisectGo R fuel mid hi Rmid mid
    else bisectGo R fuel lo mid Rlo mid

/-- The bracket-expansion loop (`while R_lo * R_hi > 0 and it < 60`) of
`solve_for_case`, fuel-indexed with fuel 60 at the call site. -/
noncomputable def expandLoop (R : ℝ → ℝ) (Rlo : ℝ) : ℕ → ℝ → ℝ → ℝ × ℝ
  | 0, hi, Rhi => (hi, Rhi)
  | fuel + 1, hi, Rhi =>
    if 0 < Rlo * Rhi then expandLoop R Rlo fuel (hi * 1.5) (R (hi * 1.5))
    else (hi, Rhi)

/-- Mirror of `solve_for_case`: `none` when no sign change is bracketed
after 60 expansions, otherwise the bisection output and its
tolerance-exit flag. -/
noncomputable def solveForCase (R : ℝ → ℝ) (d : ℝ) : Option (ℝ × Bool) :=
  let cLo : ℝ := 1
  let cHi0 : ℝ := max 50 (0.9 * d)
  let Rlo := R cLo
  let eh := expandLoop R Rlo 60 cHi0 (R cHi0)
  if 0 < Rlo * eh.2 then none
  else some (bisectGo R 100 cLo eh.1 Rlo ((cLo + eh.1) / 2))

/-- One entry of the `assumptions_tried` audit trail: the case
assumptions, the solved neutral-axis depth (`none` for `no-root`), and
the consistency verdict (`False` for `no-root` entries, which carry no
verdict in the source). -/
structure Attempt where
  yt : Bool
  yc : Bool
  cOpt : Option ℝ
  consistent : Prop

/-- Mirror of the post-solve consistency check of a case: recomputed
stresses at the solved `c` must match the assumed yield states
(`abs(stress) >= fy - 1e-6` detects yield). -/
noncomputable def attemptConsistent (p : FlexParams) (ytB ycB : Bool) (c : ℝ) : Prop :=
  ((p.fy - 1 / 1000000 ≤ |fsOfC p c ytB|) ↔ ytB = true) ∧
  ((p.fy - 1 / 1000000 ≤ |if insideBlockAt p c then fspOfC p c ycB else 0|) ↔
    ycB = true)

/-- Mirror of the `for yt, yc_assume, label in cases` loop of
`calc_flexure`: try each case in order, record every attempt, stop at
the first consistent one (returning also the bisection tolerance
flag). -/
noncomputable def caseLoop (p : FlexParams) :
    List (Bool × Bool) → List Attempt →
      List Attempt × Option (Bool × Bool × ℝ × Bool)
  | [], acc => (acc, none)
  | (ytB, ycB) :: rest, acc =>
    match solveForCase (residualR p ytB ycB) p.d with
    | none => caseLoop p rest (acc ++ [⟨ytB, ycB, none, False⟩])
    | some (c, hit) =>
      if attemptConsistent p ytB ycB c then
        (acc ++ [⟨ytB, ycB, some c, attemptConsistent p ytB ycB c⟩],
          some (ytB, ycB, c, hit))
      else
        caseLoop p rest (acc ++ [⟨ytB, ycB, some c, attemptConsistent p ytB ycB c⟩])

/-- The fixed trial order of the four equilibrium cases; source labels
are `fs: yield, f's: yield`, `fs: yield, f's: not yield`,
`fs: not yield, f's: yield`, `fs: not yield, f's: not yield`. -/
def flexCases : List (Bool × Bool) :=
  [(true, true), (true, false), (false, true), (false, false)]

/-- Mirror of the dictionary returned by `calc_flexure`; the
`assumption_used` label string is embedded as the pair of case Booleans,
and `hitTol` records whether the selected case's bisection exited
through the tolerance test (`False` on the no-consistent-case
fallback). -/
structure FlexureResult where
  beta1 : ℝ
  d : ℝ
  dPrime : Option ℝ
  a : ℝ
  c : ℝ
  eps_t : ℝ
  fs_t : ℝ
  fs_c : ℝ
  phi : ℝ
  Mn : ℝ
  derivation : List Attempt
  assumptionUsed : Bool × Bool
  hitTol : Bool

/-- The case selection of `calc_flexure`: the first consistent case, or
the fallback built from the last attempted case (`cases[-1]`, both
assumptions `False`) at the last attempt's `c_mm` (default `0.5 * h`)
with no tolerance hit. -/
noncomputable def chosenOf (p : FlexParams) : Bool × Bool × ℝ × Bool :=
  match (caseLoop p flexCases []).2 with
  | some t => t
  | none =>
    (false, false,
      ((((caseLoop p flexCases []).1.getLast?).bind
        (fun att => att.cOpt)).getD (0.5 * p.h)), false)

/-- Mirror of `calc_flexure`. -/
noncomputable def calcFlexure (b h fc fy : ℝ) (bars : List BarR) : FlexureResult :=
  let p := flexParams b h fc fy bars
  let attempts := (caseLoop p flexCases []).1
  let chosen := chosenOf p
  let ytB := chosen.1
  let ycB := chosen.2.1
  let c := chosen.2.2.1
  let hit := chosen.2.2.2
  let a := p.beta1 * c
  let eps_t := max (0.003 * (p.d - c) / max c EPS) 0
  let phi := phiFlexureFromStrain eps_t
  let fs_final := if ytB then fy
    else max (min (600 * (p.d - c) / max c EPS) fy) (-fy)
  let Cc := 0.85 * fc * b * a
  match p.dPrime with
  | some dp =>
    if insideBlockAt p c ∧ EPS < p.AsC then
      let fsp_final := if ycB then fy
        else max (min (600 * (c - dp) / max c EPS) fy) (-fy)
      let Cs := p.AsC * max fsp_final 0
      { beta1 := p.beta1, d := p.d, dPrime := p.dPrime, a := a, c := c,
        eps_t := eps_t, fs_t := fs_final, fs_c := fsp_final, phi := phi,
        Mn := Cc * (p.d - a / 2) + Cs * (p.d - dp),
        derivation := attempts, assumptionUsed := (ytB, ycB), hitTol := hit }
    else
      { beta1 := p.beta1, d := p.d, dPrime := p.dPrime, a := a, c := c,
        eps_t := eps_t, fs_t := fs_final, fs_c := 0, phi := phi,
        Mn := Cc * (p.d - a / 2),
        derivation := attempts, assumptionUsed := (ytB, ycB), hitTol := hit }
  | none =>
    { beta1 := p.beta1, d := p.d, dPrime := p.dPrime, a := a, c := c,
      eps_t := eps_t, fs_t := fs_final, fs_c := 0, phi := phi,
      Mn := Cc * (p.d - a / 2),
      derivation := attempts, assumptionUsed := (ytB, ycB), hitTol := hit }

theorem flexParams_h (b h fc fy : ℝ) (bars : List BarR) :
    (flexParams b h fc fy bars).h = h := rfl

/-- Field values of `calcFlexure` shared by all of its result-assembly
branches. -/
theorem calcFlexure_fields (b h fc fy : ℝ) (bars : List BarR) :
    (calcFlexure b h fc fy bars).derivation
        = (caseLoop (flexParams b h fc fy bars) flexCases []).1 ∧
    (calcFlexure b h fc fy bars).assumptionUsed
        = ((chosenOf (flexParams b h fc fy bars)).1,
           (chosenOf (flexParams b h fc fy bars)).2.1) ∧
    (calcFlexure b h fc fy bars).c
        = (chosenOf (flexParams b h fc fy bars)).2.2.1 ∧
    (calcFlexure b h fc fy bars).hitTol
        = (chosenOf (flexParams b h fc fy bars)).2.2.2 ∧
    (calcFlexure b h fc fy bars).eps_t
        = max (0.003 * ((flexParams b h fc fy bars).d -
            (chosenOf (flexParams b h fc fy bars)).2.2.1) /
            max (chosenOf (flexParams b h fc fy bars)).2.2.1 EPS) 0 ∧
    (calcFlexure b h fc fy bars).phi
        = phiFlexureFromStrain (calcFlexure b h fc fy bars).eps_t := by
  unfold calcFlexure
  dsimp only
  rcases hdp : (flexParams b h fc fy bars).dPrime with _ | dp
  · exact ⟨rfl, rfl, rfl, rfl, rfl, rfl⟩
  · split_ifs <;> exact ⟨rfl, rfl, rfl, rfl, rfl, rfl⟩

/-- A bisection run that exits through the tolerance test really leaves
a residual below the tolerance at the returned point. -/
theorem bisectGo_hitTol (R : ℝ → ℝ) :
    ∀ (fuel : ℕ) (lo hi Rlo last c : ℝ),
      bisectGo R fuel lo hi Rlo last = (c, true) → |R c| < 1 / 1000 := by
  intro fuel
  induction fuel with
  | zero =>
    intro lo hi Rlo last c h
    rw [bisectGo] at h
    exact absurd (congrArg Prod.snd h) (by simp)
  | succ f ih =>
    intro lo hi Rlo last c h
    rw [bisectGo] at h
    split_ifs at h with h1 h2
    · have hc' : (lo + hi) / 2 = c := congrArg Prod.fst h
      rw [← hc']
      exact h1
    · exact ih _ _ _ _ _ h
    · exact ih _ _ _ _ _ h

/-- A solved case whose flag is `true` met the bisection tolerance. -/
theorem solveForCase_hitTol (R : ℝ → ℝ) (d c : ℝ)
    (h : solveForCase R d = some (c, true)) : |R c| < 1 / 1000 := by
  unfold solveForCase at h
  dsimp only at h
  split_ifs at h with h1
  exact bisectGo_hitTol R 100 _ _ _ _ c (Option.some_inj.mp h)

/-- The case selected by the loop was solved by `solve_for_case` with
the same depth and tolerance flag, and passed its consistency check. -/
theorem caseLoop_some_solve (p : FlexParams) :
    ∀ (cs : List (Bool × Bool)) (acc atts : List Attempt)
      (ytB ycB : Bool) (c : ℝ) (hit : Bool),
      caseLoop p cs acc = (atts, some (ytB, ycB, c, hit)) →
        solveForCase (residualR p ytB ycB) p.d = some (c, hit) ∧
          attemptConsistent p ytB ycB c := by
  intro cs
  induction cs with
  | nil =>
    intro acc atts ytB ycB c hit h
    rw [caseLoop] at h
    exact absurd (congrArg Prod.snd h) (by simp)
  | cons hd rest ih =>
    intro acc atts ytB ycB c hit h
    obtain ⟨y1, y2⟩ := hd
    rw [caseLoop] at h
    rcases hsv : solveForCase (residualR p y1 y2) p.d with _ | cv
    · rw [hsv] at h
      exact ih _ _ _ _ _ _ h
    · obtain ⟨c', hit'⟩ := cv
      rw [hsv] at h
      dsimp only at h
      split_ifs at h with hcons
      · have h2 := congrArg Prod.snd h
        simp only [Option.some_inj, Prod.mk.injEq] at h2
        obtain ⟨rfl, rfl, rfl, rfl⟩ := h2
        exact ⟨hsv, hcons⟩
      · exact ih _ _ _ _ _ _ h

/-- If the loop selects a case, the recorded trail contains a consistent
attempt. -/
theorem caseLoop_some_consistent (p : FlexParams) :
    ∀ (cs : List (Bool × Bool)) (acc atts : List Attempt)
      (t : Bool × Bool × ℝ × Bool),
      caseLoop p cs acc = (atts, some t) → ∃ att ∈ atts, att.consistent := by
  intro cs
  induction cs with
  | nil =>
    intro acc atts t h
    rw [caseLoop] at h
    exact absurd (congrArg Prod.snd h) (by simp)
  | cons hd rest ih =>
    intro acc atts t h
    obtain ⟨y1, y2⟩ := hd
    rw [caseLoop] at h
    rcases hsv : solveForCase (residualR p y1 y2) p.d with _ | cv
    · rw [hsv] at h
      exact ih _ _ _ h
    · obtain ⟨c', hit'⟩ := cv
      rw [hsv] at h
      dsimp only at h
      split_ifs at h with hcons
      · have h1 : acc ++ [⟨y1, y2, some c', attemptConsistent p y1 y2 c'⟩] = atts := by
          simpa using congrArg Prod.fst h
        refine ⟨⟨y1, y2, some c', attemptConsistent p y1 y2 c'⟩, ?_, hcons⟩
        rw [← h1]
        simp
      · exact ih _ _ _ h

/-- If no case is selected, the loop recorded one attempt per case. -/
theorem caseLoop_none_length (p : FlexParams) :
    ∀ (cs : List (Bool × Bool)) (acc atts : List Attempt),
      caseLoop p cs acc = (atts, none) →
        atts.length = acc.length + cs.length := by
  intro cs
  induction cs with
  | nil =>
    intro acc atts h
    rw [caseLoop] at h
    have h1 := congrArg Prod.fst h
    simp only at h1
    rw [← h1]
    simp
  | cons hd rest ih =>
    intro acc atts h
    obtain ⟨y1, y2⟩ := hd
    rw [caseLoop] at h
    rcases hsv : solveForCase (residualR p y1 y2) p.d with _ | cv
    · rw [hsv] at h
      have h2 := ih _ _ h
      simp only [List.length_append, List.length_singleton] at h2
      simp only [List.length_cons]
      omega
    · obtain ⟨c', hit'⟩ := cv
      rw [hsv] at h
      dsimp only at h
      split_ifs at h with hcons
      · exact absurd (congrArg Prod.snd h) (by simp)
      · have h2 := ih _ _ h
        simp only [List.length_append, List.length_singleton] at h2
        simp only [List.length_cons]
        omega

theorem chosenOf_some (p : FlexParams) (t : Bool × Bool × ℝ × Bool)
    (h : (caseLoop p flexCases []).2 = some t) : chosenOf p = t := by
  unfold chosenOf
  rw [h]

theorem chosenOf_none (p : FlexParams)
    (h : (caseLoop p flexCases []).2 = none) :
    chosenOf p = (false, false,
      ((((caseLoop p flexCases []).1.getLast?).bind
        (fun att => att.cOpt)).getD (0.5 * p.h)), false) := by
  unfold chosenOf
  rw [h]

/-- C5 amended.  Whenever the selected equilibrium case was accepted
from a bisection run that exited through the `1e-3` tolerance test, the
force residual of that case at the returned neutral-axis depth is
smaller than `1e-3` in absolute value.  (The unamended claim fails on
inputs where no case brackets a root and the solver falls back, see the
counterexample.) -/
theorem c5_amended_residual_small_on_tolerance_exit
    (b h fc fy : ℝ) (bars : List BarR)
    (hhit : (calcFlexure b h fc fy bars).hitTol = true) :
    |residualR (flexParams b h fc fy bars)
        (calcFlexure b h fc fy bars).assumptionUsed.1
        (calcFlexure b h fc fy bars).assumptionUsed.2
        (calcFlexure b h fc fy bars).c| < 1 / 1000 := by
  obtain ⟨hder, hused, hcf, hhitf, _, _⟩ := calcFlexure_fields b h fc fy bars
  rcases hlc : (caseLoop (flexParams b h fc fy bars) flexCases []).2 with _ | t
  · rw [hhitf, chosenOf_none _ hlc] at hhit
    exact absurd hhit (by simp)
  · obtain ⟨ytB, ycB, c, hit⟩ := t
    have hch := chosenOf_some _ _ hlc
    rw [hhitf, hch] at hhit
    rw [hused, hcf, hch]
    dsimp only at hhit ⊢
    have hpair : caseLoop (flexParams b h fc fy bars) flexCases [] =
        ((caseLoop (flexParams b h fc fy bars) flexCases []).1,
          some (ytB, ycB, c, hit)) := by
      rw [← hlc]
    obtain ⟨hsolve, _⟩ :=
      caseLoop_some_solve (flexParams b h fc fy bars) flexCases [] _ _ _ _ _ hpair
    rw [hhit] at hsolve
    exact solveForCase_hitTol _ _ _ hsolve

/-- C6.  The flexural solver is total (this embedding is a function),
and when no attempted case is self-consistent it returns the result
built from the last case in trial order (neither steel yields), with all
four cases recorded in the audit trail and the neutral-axis depth taken
from the last attempt (default `0.5 * h`), without a tolerance hit. -/
theorem c6_fallback_is_last_case (b h fc fy : ℝ) (bars : List BarR)
    (hnone : ∀ att ∈ (calcFlexure b h fc fy bars).derivation, ¬ att.consistent) :
    (calcFlexure b h fc fy bars).assumptionUsed = (false, false) ∧
    (calcFlexure b h fc fy bars).derivation.length = 4 ∧
    (calcFlexure b h fc fy bars).c =
      ((((calcFlexure b h fc fy bars).derivation.getLast?).bind
        (fun att => att.cOpt)).getD (0.5 * h)) ∧
    (calcFlexure b h fc fy bars).hitTol = false := by
  obtain ⟨hder, hused, hcf, hhitf, _, _⟩ := calcFlexure_fields b h fc fy bars
  rcases hlc : (caseLoop (flexParams b h fc fy bars) flexCases []).2 with _ | t
  · have hch := chosenOf_none _ hlc
    have hpair : caseLoop (flexParams b h fc fy bars) flexCases [] =
        ((caseLoop (flexParams b h fc fy bars) flexCases []).1, none) := by
      rw [← hlc]
    refine ⟨by rw [hused, hch], ?_, ?_, by rw [hhitf, hch]⟩
    · rw [hder]
      have := caseLoop_none_length (flexParams b h fc fy bars) flexCases [] _ hpair
      simpa [flexCases] using this
    · rw [hcf, hch, hder]
      rfl
  · exfalso
    have hpair : caseLoop (flexParams b h fc fy bars) flexCases [] =
        ((caseLoop (flexParams b h fc fy bars) flexCases []).1, some t) := by
      rw [← hlc]
    obtain ⟨att, hmem, hcons⟩ :=
      caseLoop_some_consistent (flexParams b h fc fy bars) flexCases [] _ t hpair
    refine hnone att ?_ hcons
    rw [hder]
    exact hmem

/-- A single 2 mm tension bar in a 1000000 mm wide, 100 mm deep section:
the concrete compression force dwarfs the steel tension at every
candidate depth, so no equilibrium case ever brackets a root. -/
noncomputable def c5Bars : List BarR := [⟨50, 50, 2, .tension, 1⟩]

/-- Section parameters computed for the no-bracket input. -/
noncomputable def c5P : FlexParams :=
  ⟨1000000, 100, 28, 415, 0.85, Real.pi, 0, 50, none⟩

theorem c5_params_eval : flexParams 1000000 100 28 415 c5Bars = c5P := by
  have hpi3 := Real.pi_gt_three
  have hAt : sumArea c5Bars .tension = Real.pi := by
    simp [sumArea, c5Bars, areaOfBar]
    ring
  have hAc : sumArea c5Bars .compression = 0 := by
    simp [sumArea, c5Bars]
  have hyt : centroidOfRole c5Bars .tension = 50 := by
    unfold centroidOfRole
    dsimp only
    rw [hAt, if_neg (by simp only [EPS]; push_neg; nlinarith)]
    simp only [c5Bars, areaOfBar]
    simp
    field_simp
    ring
  unfold flexParams
  dsimp only
  rw [hAt, hAc, hyt, if_neg (by simp only [EPS]; norm_num)]
  unfold c5P
  simp only [FlexParams.mk.injEq, beta1OfFc]
  norm_num

/-- The clamped steel stress never exceeds the yield strength in
absolute value. -/
theorem fsOfC_abs_le (p : FlexParams) (c : ℝ) (ytB : Bool) (hfy : 0 ≤ p.fy) :
    |fsOfC p c ytB| ≤ p.fy := by
  unfold fsOfC
  split_ifs
  · rw [abs_of_nonneg hfy]
  · rw [abs_le]
    refine ⟨le_max_right _ _, max_le (min_le_right _ _) (by linarith)⟩

theorem c5_residual_eval (ytB ycB : Bool) (c : ℝ) :
    residualR c5P ytB ycB c = 20230000 * c - Real.pi * fsOfC c5P c ytB := by
  unfold residualR insideBlockAt c5P
  norm_num
  ring

theorem c5_residual_pos (ytB ycB : Bool) (c : ℝ) (hc : 1 ≤ c) :
    0 < residualR c5P ytB ycB c := by
  rw [c5_residual_eval]
  have habs : |fsOfC c5P c ytB| ≤ 415 := fsOfC_abs_le c5P c ytB (by norm_num [c5P])
  have hle : fsOfC c5P c ytB ≤ 415 := (abs_le.mp habs).2
  have hpi4 := Real.pi_lt_four
  have hpi0 := Real.pi_pos
  nlinarith [mul_le_mul_of_nonneg_left hle (le_of_lt hpi0)]

/-- The bracket-expansion loop preserves a lower bound of 1 on the upper
endpoint and keeps its second component synchronized with `R`. -/
theorem expandLoop_pos_invariant (R : ℝ → ℝ) :
    ∀ (fuel : ℕ) (hi : ℝ), 1 ≤ hi →
      1 ≤ (expandLoop R (R 1) fuel hi (R hi)).1 ∧
      (expandLoop R (R 1) fuel hi (R hi)).2 =
        R ((expandLoop R (R 1) fuel hi (R hi)).1) := by
  intro fuel
  induction fuel with
  | zero =>
    intro hi hhi
    exact ⟨hhi, rfl⟩
  | succ f ih =>
    intro hi hhi
    rw [expandLoop]
    split_ifs with hcond
    · exact ih (hi * 1.5) (by nlinarith)
    · exact ⟨hhi, rfl⟩

theorem c5_solve_none (ytB ycB : Bool) :
    solveForCase (residualR c5P ytB ycB) 50 = none := by
  have hpos : ∀ c, 1 ≤ c → 0 < residualR c5P ytB ycB c :=
    fun c hc => c5_residual_pos ytB ycB c hc
  unfold solveForCase
  dsimp only
  rw [show max (50 : ℝ) (0.9 * 50) = 50 by norm_num]
  obtain ⟨h1, h2⟩ := expandLoop_pos_invariant (residualR c5P ytB ycB) 60 50 (by norm_num)
  rw [if_pos (by rw [h2]; exact mul_pos (hpos 1 le_rfl) (hpos _ h1))]

theorem c5_loop_eval :
    caseLoop c5P flexCases [] =
      ([⟨true, true, none, False⟩, ⟨true, false, none, False⟩,
        ⟨false, true, none, False⟩, ⟨false, false, none, False⟩], none) := by
  have hd : c5P.d = 50 := rfl
  rw [flexCases, caseLoop, hd, c5_solve_none true true]
  dsimp only
  rw [caseLoop, hd, c5_solve_none true false]
  dsimp only
  rw [caseLoop, hd, c5_solve_none false true]
  dsimp only
  rw [caseLoop, hd, c5_solve_none false false]
  dsimp only
  rw [caseLoop]
  simp

/-- Field values of the solver run on the no-bracket input: fallback to
the last case at the default depth `0.5 * h = 50`. -/
theorem c5_flex_eval :
    (calcFlexure 1000000 100 28 415 c5Bars).assumptionUsed = (false, false) ∧
    (calcFlexure 1000000 100 28 415 c5Bars).c = 50 ∧
    (calcFlexure 1000000 100 28 415 c5Bars).hitTol = false ∧
    (calcFlexure 1000000 100 28 415 c5Bars).derivation =
      [⟨true, true, none, False⟩, ⟨true, false, none, False⟩,
       ⟨false, true, none, False⟩, ⟨false, false, none, False⟩] := by
  obtain ⟨hder, hused, hcf, hhitf, _, _⟩ :=
    calcFlexure_fields 1000000 100 28 415 c5Bars
  have hlc2 : (caseLoop (flexParams 1000000 100 28 415 c5Bars) flexCases []).2
      = none := by
    rw [c5_params_eval, c5_loop_eval]
  have hlc1 : (caseLoop (flexParams 1000000 100 28 415 c5Bars) flexCases []).1
      = [⟨true, true, none, False⟩, ⟨true, false, none, False⟩,
         ⟨false, true, none, False⟩, ⟨false, false, none, False⟩] := by
    rw [c5_params_eval, c5_loop_eval]
  have hch := chosenOf_none _ hlc2
  rw [hlc1] at hch
  refine ⟨by rw [hused, hch], ?_, by rw [hhitf, hch], by rw [hder, hlc1]⟩
  rw [hcf, hch]
  have hh : (flexParams 1000000 100 28 415 c5Bars).h = 100 := rfl
  rw [hh]
  norm_num

/-- C5 counterexample.  On the no-bracket input the solver falls back to
`c = 0.5 * h = 50` for the neither-yields case, where the force residual
is `20230000 * 50`, more than `1e-3` in absolute value: the unamended
claim is false. -/
theorem c5_counterexample_residual_not_small :
    ¬ |residualR (flexParams 1000000 100 28 415 c5Bars)
        (calcFlexure 1000000 100 28 415 c5Bars).assumptionUsed.1
        (calcFlexure 1000000 100 28 415 c5Bars).assumptionUsed.2
        (calcFlexure 1000000 100 28 415 c5Bars).c| < 1 / 1000 := by
  obtain ⟨hused, hc, _, _⟩ := c5_flex_eval
  rw [hused, hc, c5_params_eval]
  have hfs : fsOfC c5P 50 false = 0 := by
    unfold fsOfC c5P
    norm_num
  rw [c5_residual_eval, hfs]
  norm_num

/-- Witness for the C5 amended theorem is provided by the benchmark
section further below; witness for C6 is the no-bracket input. -/
theorem c6_fallback_is_last_case_witness :
    (∀ att ∈ (calcFlexure 1000000 100 28 415 c5Bars).derivation,
      ¬ att.consistent) ∧
    ((calcFlexure 1000000 100 28 415 c5Bars).assumptionUsed = (false, false) ∧
     (calcFlexure 1000000 100 28 415 c5Bars).derivation.length = 4 ∧
     (calcFlexure 1000000 100 28 415 c5Bars).c =
       ((((calcFlexure 1000000 100 28 415 c5Bars).derivation.getLast?).bind
         (fun att => att.cOpt)).getD (0.5 * 100)) ∧
     (calcFlexure 1000000 100 28 415 c5Bars).hitTol = false) := by
  have hyp : ∀ att ∈ (calcFlexure 1000000 100 28 415 c5Bars).derivation,
      ¬ att.consistent := by
    obtain ⟨_, _, _, hder⟩ := c5_flex_eval
    rw [hder]
    intro att hatt
    simp only [List.mem_cons, List.not_mem_nil, or_false] at hatt
    rcases hatt with rfl | rfl | rfl | rfl <;> simp
  exact ⟨hyp, c6_fallback_is_last_case 1000000 100 28 415 c5Bars hyp⟩

/-- On a strictly increasing affine residual with a sign-changing
bracket, the bisection exits through the tolerance test (given a mild
fuel bound) and its output has a residual below the tolerance. -/
theorem bisect_linear_hit (K T : ℝ) :
    ∀ (fuel : ℕ) (lo hi last : ℝ),
      K * lo - T < 0 → 0 < K * hi - T →
      K * (hi - lo) < 1 / 1000 * 2 ^ fuel →
      ∃ c, bisectGo (fun x => K * x - T) (fuel + 1) lo hi (K * lo - T) last
          = (c, true) ∧ |K * c - T| < 1 / 1000 := by
  intro fuel
  induction fuel with
  | zero =>
    intro lo hi last hlo hhi hw
    rw [pow_zero, mul_one] at hw
    rw [bisectGo]
    have hmid : |K * ((lo + hi) / 2) - T| < 1 / 1000 := by
      rw [abs_lt]
      constructor <;> nlinarith [hlo, hhi, hw]
    rw [if_pos hmid]
    exact ⟨_, rfl, hmid⟩
  | succ f ih =>
    intro lo hi last hlo hhi hw
    have h2p : (1 : ℝ) / 1000 * 2 ^ (f + 1) = 2 * (1 / 1000 * 2 ^ f) := by
      ring
    rw [h2p] at hw
    rw [bisectGo]
    by_cases hmid : |K * ((lo + hi) / 2) - T| < 1 / 1000
    · rw [if_pos hmid]
      exact ⟨_, rfl, hmid⟩
    · rw [if_neg hmid]
      by_cases hsign : 0 < (K * lo - T) * (K * ((lo + hi) / 2) - T)
      · rw [if_pos hsign]
        have hRmid_neg : K * ((lo + hi) / 2) - T < 0 := by
          by_contra hpos
          push_neg at hpos
          nlinarith
        exact ih ((lo + hi) / 2) hi ((lo + hi) / 2) hRmid_neg hhi (by nlinarith)
      · rw [if_neg hsign]
        have hRmid_pos : 0 < K * ((lo + hi) / 2) - T := by
          rcases lt_trichotomy (K * ((lo + hi) / 2) - T) 0 with hlt | heq | hgt
          · exact absurd (mul_pos_of_neg_of_neg hlo hlt) hsign
          · exact absurd (by rw [heq]; norm_num) hmid
          · exact hgt
        exact ih lo ((lo + hi) / 2) ((lo + hi) / 2) hlo hRmid_pos (by nlinarith)

/-- Section parameters of the benchmark scenario (four 20 mm tension
bars at depth 60 from the bottom): steel area `400 π`, effective depth
440 mm, no compression steel, `beta1 = 0.85`. -/
noncomputable def c1P : FlexParams :=
  ⟨300, 500, 21, 415, 0.85, 400 * Real.pi, 0, 440, none⟩

theorem c1_params_eval :
    flexParams 300 500 21 415 (c1Bars.map barQtoR) = c1P := by
  have hpi3 := Real.pi_gt_three
  have hAt : sumArea (c1Bars.map barQtoR) .tension = 400 * Real.pi := by
    simp [sumArea, c1Bars, barQtoR, areaOfBar]
    ring
  have hAc : sumArea (c1Bars.map barQtoR) .compression = 0 := by
    simp [sumArea, c1Bars, barQtoR]
  have hyt : centroidOfRole (c1Bars.map barQtoR) .tension = 60 := by
    unfold centroidOfRole
    dsimp only
    rw [hAt, if_neg (by simp only [EPS]; push_neg; nlinarith)]
    rw [div_eq_iff (by positivity)]
    simp [c1Bars, barQtoR, areaOfBar]
    ring
  unfold flexParams
  dsimp only
  rw [hAt, hAc, hyt, if_neg (by simp only [EPS]; norm_num)]
  unfold c1P
  simp only [FlexParams.mk.injEq, beta1OfFc]
  norm_num

theorem c1_residual_eval (ycB : Bool) (c : ℝ) :
    residualR c1P true ycB c = 4551.75 * c - 166000 * Real.pi := by
  unfold residualR insideBlockAt fsOfC c1P
  norm_num
  ring

/-- Both tension-yield cases of the benchmark bracket a root on the
initial interval and the bisection meets its tolerance. -/
theorem c1_solve_eval (ycB : Bool) :
    ∃ c, solveForCase (residualR c1P true ycB) c1P.d = some (c, true) ∧
      |4551.75 * c - 166000 * Real.pi| < 1 / 1000 := by
  have hpi4 := Real.pi_gt_d4
  have hpi4' := Real.pi_lt_d4
  have hfun : residualR c1P true ycB =
      fun c => 4551.75 * c - 166000 * Real.pi := funext (c1_residual_eval ycB)
  have hd : c1P.d = 440 := rfl
  rw [hfun, hd]
  unfold solveForCase
  dsimp only
  rw [show max (50 : ℝ) (0.9 * 440) = 396 by norm_num]
  have hlo : 4551.75 * (1 : ℝ) - 166000 * Real.pi < 0 := by nlinarith
  have hhi : 0 < 4551.75 * (396 : ℝ) - 166000 * Real.pi := by nlinarith
  have hexp : expandLoop (fun c => 4551.75 * c - 166000 * Real.pi)
      ((fun c : ℝ => 4551.75 * c - 166000 * Real.pi) 1) 60 396
      ((fun c : ℝ => 4551.75 * c - 166000 * Real.pi) 396) =
      (396, (fun c : ℝ => 4551.75 * c - 166000 * Real.pi) 396) := by
    rw [expandLoop]
    rw [if_neg (by dsimp only; nlinarith)]
  rw [hexp]
  rw [if_neg (by dsimp only; nlinarith)]
  obtain ⟨c, hc, hcres⟩ := bisect_linear_hit 4551.75 (166000 * Real.pi) 99
    1 396 ((1 + 396) / 2) hlo hhi (by norm_num)
  exact ⟨c, by rw [hc], hcres⟩

/-- With no compression steel, a case assuming compression-steel yield
can never be consistent: the recomputed compression stress is 0. -/
theorem c1_case_tt_inconsistent (c : ℝ) :
    ¬ attemptConsistent c1P true true c := by
  rintro ⟨_, h2⟩
  have hib : ¬ insideBlockAt c1P c := by
    unfold insideBlockAt c1P
    simp
  rw [if_neg hib] at h2
  have := h2.mpr rfl
  rw [abs_zero] at this
  have hfy : c1P.fy = 415 := rfl
  rw [hfy] at this
  norm_num at this

/-- The tension-yields-only case of the benchmark is consistent at every
depth: the assumed tension stress is the yield plateau and the
compression stress is 0. -/
theorem c1_case_tf_consistent (c : ℝ) :
    attemptConsistent c1P true false c := by
  constructor
  · have h1 : fsOfC c1P c true = 415 := rfl
    rw [h1]
    have hfy : c1P.fy = 415 := rfl
    rw [hfy]
    simp
  · have hib : ¬ insideBlockAt c1P c := by
      unfold insideBlockAt c1P
      simp
    rw [if_neg hib]
    have hfy : c1P.fy = 415 := rfl
    rw [hfy, abs_zero]
    simp only [Bool.false_eq_true, iff_false, not_le]
    norm_num

/-- Full evaluation of the flexural solver on the benchmark scenario:
the tension-yields-only case is selected after the both-yields case
fails its consistency check, the bisection tolerance was met, and the
extreme-tension strain is in the `phi = 0.90` regime. -/
theorem c1_flex_eval :
    (calcFlexure 300 500 21 415 (c1Bars.map barQtoR)).assumptionUsed
        = (true, false) ∧
    0.005 ≤ (calcFlexure 300 500 21 415 (c1Bars.map barQtoR)).eps_t ∧
    (calcFlexure 300 500 21 415 (c1Bars.map barQtoR)).phi = 0.90 ∧
    (calcFlexure 300 500 21 415 (c1Bars.map barQtoR)).hitTol = true := by
  have hpi4 := Real.pi_gt_d4
  have hpi4' := Real.pi_lt_d4
  obtain ⟨c1, hc1, hres1⟩ := c1_solve_eval true
  obtain ⟨c2, hc2, hres2⟩ := c1_solve_eval false
  have hc2b : 114 < c2 ∧ c2 < 115 := by
    rw [abs_lt] at hres2
    constructor <;> nlinarith [hres2.1, hres2.2]
  have hloop : caseLoop c1P flexCases [] =
      ([⟨true, true, some c1, attemptConsistent c1P true true c1⟩,
        ⟨true, false, some c2, attemptConsistent c1P true false c2⟩],
       some (true, false, c2, true)) := by
    rw [flexCases, caseLoop, hc1]
    dsimp only
    rw [if_neg (c1_case_tt_inconsistent c1)]
    rw [caseLoop, hc2]
    dsimp only
    rw [if_pos (c1_case_tf_consistent c2)]
    simp
  obtain ⟨hder, hused, hcf, hhitf, hepsf, hphif⟩ :=
    calcFlexure_fields 300 500 21 415 (c1Bars.map barQtoR)
  have hlc2 : (caseLoop (flexParams 300 500 21 415 (c1Bars.map barQtoR))
      flexCases []).2 = some (true, false, c2, true) := by
    rw [c1_params_eval, hloop]
  have hch := chosenOf_some _ _ hlc2
  have heps : (calcFlexure 300 500 21 415 (c1Bars.map barQtoR)).eps_t
      = 0.003 * (440 - c2) / c2 := by
    rw [hepsf, hch, c1_params_eval]
    have hd : c1P.d = 440 := rfl
    rw [hd]
    dsimp only
    rw [show max c2 EPS = c2 from max_eq_left (by simp only [EPS]; nlinarith [hc2b.1]),
      max_eq_left (div_nonneg (by nlinarith [hc2b.2]) (by nlinarith [hc2b.1]))]
  refine ⟨by rw [hused, hch], ?_, ?_, by rw [hhitf, hch]⟩
  · rw [heps]
    rw [le_div_iff₀ (by nlinarith [hc2b.1])]
    nlinarith [hc2b.2]
  · rw [hphif, heps]
    unfold phiFlexureFromStrain
    have hgt : (0.005 : ℝ) ≤ 0.003 * (440 - c2) / c2 := by
      rw [le_div_iff₀ (by nlinarith [hc2b.1])]
      nlinarith [hc2b.2]
    rw [if_neg (by nlinarith [hgt]), if_pos hgt]

/-- C1 amended.  For the benchmark input (300 by 500, cover 40, stirrup
10, four 20 mm tension bars, 21 MPa concrete, 415 MPa steel) the
placement engine returns exactly 4 bars, all tension in layer 1 at one
row height, and the flexural solver selects the tension-yields-only
equilibrium case — the both-assumptions-yield case is attempted first
but fails its consistency check because the recomputed compression
stress is 0 with no compression steel — with strain eps_t at least
0.005 and phi = 0.90. -/
theorem c1_benchmark_scenario :
    placeBars 300 500 40 10 4 20 0 none none =
      .ok ⟨c1Bars, ⟨50, 50, 250, 450⟩⟩ ∧
    c1Bars.length = 4 ∧
    (∀ bar ∈ c1Bars, bar.role = .tension ∧ bar.layer = 1 ∧ bar.y_mm = 60) ∧
    (calcFlexure 300 500 21 415 (c1Bars.map barQtoR)).assumptionUsed
      = (true, false) ∧
    0.005 ≤ (calcFlexure 300 500 21 415 (c1Bars.map barQtoR)).eps_t ∧
    (calcFlexure 300 500 21 415 (c1Bars.map barQtoR)).phi = 0.90 := by
  obtain ⟨h1, h2, h3, _⟩ := c1_flex_eval
  refine ⟨c1_place_eval, by simp [c1Bars], ?_, h1, h2, h3⟩
  intro bar hbar
  simp only [c1Bars, List.mem_cons, List.not_mem_nil, or_false] at hbar
  rcases hbar with rfl | rfl | rfl | rfl <;> exact ⟨rfl, rfl, rfl⟩

/-- C1 counterexample.  On the benchmark input the solver does not
select the both-assumptions-yield case (it selects tension-yields-only,
since with no compression steel the compression-yield assumption can
never be confirmed by the consistency check). -/
theorem c1_counterexample_not_both_yield :
    (calcFlexure 300 500 21 415 (c1Bars.map barQtoR)).assumptionUsed
      ≠ (true, true) := by
  obtain ⟨h1, _, _, _⟩ := c1_flex_eval
  rw [h1]
  simp

/-- Witness for the amended C5 theorem: the benchmark run exits through
the bisection tolerance, so its selected-case residual is below 1e-3. -/
theorem c5_amended_residual_small_witness :
    (calcFlexure 300 500 21 415 (c1Bars.map barQtoR)).hitTol = true ∧
    |residualR (flexParams 300 500 21 415 (c1Bars.map barQtoR))
        (calcFlexure 300 500 21 415 (c1Bars.map barQtoR)).assumptionUsed.1
        (calcFlexure 300 500 21 415 (c1Bars.map barQtoR)).assumptionUsed.2
        (calcFlexure 300 500 21 415 (c1Bars.map barQtoR)).c| < 1 / 1000 := by
  obtain ⟨_, _, _, h4⟩ := c1_flex_eval
  exact ⟨h4, c5_amended_residual_small_on_tolerance_exit 300 500 21 415
    (c1Bars.map barQtoR) h4⟩

/-!
Shear design module (`calc_shear`), NSCP 2015.  Each local variable of
the source is one definition here; `calcShear` assembles the result
record from them.  `math.sqrt` is `Real.sqrt`.
-/

/-- The `governing_limit` tag; source strings are `strength`, `minimum`
and `table`. -/
inductive Governing where
  | strength
  | minimum
  | table
deriving DecidableEq

/-- Factored shear demand in newtons (`Vu_N`): 0 when absent. -/
noncomputable def shearVuN (VuKN : Option ℝ) : ℝ :=
  match VuKN with
  | none => 0
  | some v => v * 1000

/-- Two-legged stirrup area (`Av_mm2`). -/
noncomputable def shearAv (stirrupDia : ℝ) : ℝ := 2 * areaOfBar stirrupDia

/-- Concrete shear strength (`Vc_N`, Sec. 422.5.5). -/
noncomputable def shearVcN (b d fc : ℝ) (lightweight : Bool) : ℝ :=
  (1 / 6) * (if lightweight then 0.75 else 1) * Real.sqrt fc * b * d

/-- Required steel shear strength (`Vs_req_N`), with `phi = 0.75`. -/
noncomputable def shearVsReqN (b d fc : ℝ) (VuKN : Option ℝ)
    (lightweight : Bool) : ℝ :=
  max (shearVuN VuKN / 0.75 - shearVcN b d fc lightweight) 0

/-- Table threshold (`Vs_threshold_N`). -/
noncomputable def shearVsThresholdN (b d fc : ℝ) : ℝ :=
  0.33 * Real.sqrt fc * b * d

/-- Table maximum spacing (`s_table_max_mm`, Table 409.7.6.2.2). -/
noncomputable def shearSTable (b d fc : ℝ) (VuKN : Option ℝ)
    (lightweight : Bool) : ℝ :=
  if shearVsReqN b d fc VuKN lightweight ≤
      shearVsThresholdN b d fc + 1 / 1000000 then
    min (d / 2) 600
  else min (d / 4) 300

/-- Minimum-reinforcement spacing (`s_min_req_mm`, Table 409.6.3.3). -/
noncomputable def shearSMin (b fc fySt stirrupDia : ℝ) : ℝ :=
  shearAv stirrupDia /
    max (max (0.062 * Real.sqrt fc * b / max fySt EPS)
      (0.35 * b / max fySt EPS)) EPS

/-- Strength-based spacing (`s_req_mm`), defaulting to the table maximum
when strength does not govern. -/
noncomputable def shearSReq (b d fc fySt : ℝ) (VuKN : Option ℝ)
    (stirrupDia : ℝ) (lightweight : Bool) : ℝ :=
  if shearVsReqN b d fc VuKN lightweight ≤ EPS ∨ shearAv stirrupDia ≤ EPS ∨
      d ≤ EPS then
    shearSTable b d fc VuKN lightweight
  else
    shearAv stirrupDia * fySt * d / shearVsReqN b d fc VuKN lightweight

/-- Governing spacing (`s_use_mm`): the minimum of the three candidate
spacings. -/
noncomputable def shearSUse (b d fc fySt : ℝ) (VuKN : Option ℝ)
    (stirrupDia : ℝ) (lightweight : Bool) : ℝ :=
  min (min (shearSReq b d fc fySt VuKN stirrupDia lightweight)
    (shearSMin b fc fySt stirrupDia)) (shearSTable b d fc VuKN lightweight)

/-- Governing tag: `strength` if the governing spacing matches the
strength-based spacing within `1e-6`, else `minimum` if it matches the
minimum-reinforcement spacing, else `table`. -/
noncomputable def shearGoverning (b d fc fySt : ℝ) (VuKN : Option ℝ)
    (stirrupDia : ℝ) (lightweight : Bool) : Governing :=
  if |shearSUse b d fc fySt VuKN stirrupDia lightweight -
      shearSReq b d fc fySt VuKN stirrupDia lightweight| ≤ 1 / 1000000 then
    .strength
  else if |shearSUse b d fc fySt VuKN stirrupDia lightweight -
      shearSMin b fc fySt stirrupDia| ≤ 1 / 1000000 then
    .minimum
  else .table

/-- Mirror of the dictionary returned by `calc_shear` (numeric fields
and the governing tag; the informational strings `table_case` and
`support_shear_note` carry no data beyond the threshold branch). -/
structure ShearResult where
  phi : ℝ
  lambdaConcrete : ℝ
  Vc_N : ℝ
  Vs_req_N : ℝ
  Vs_threshold_N : ℝ
  s_req_mm : ℝ
  s_min_req_mm : ℝ
  s_table_max_mm : ℝ
  s_use_mm : ℝ
  governing_limit : Governing
  Vs_prov_N : ℝ
  phiVn_kN : ℝ
  ok : Prop
  dim_limit_phiV_kN : ℝ
  ok_dim : Prop

/-- Mirror of `calc_shear`. -/
noncomputable def calcShear (b d fc fySt : ℝ) (VuKN : Option ℝ)
    (stirrupDia : ℝ) (lightweight : Bool) : ShearResult :=
  let phi : ℝ := 0.75
  let VcN := shearVcN b d fc lightweight
  let sUse := shearSUse b d fc fySt VuKN stirrupDia lightweight
  let VsProvN := shearAv stirrupDia * fySt * d / max sUse EPS
  let phiVnKN := phi * (VcN + VsProvN) / 1000
  let dimLimit := phi * (VcN + (2 / 3) * Real.sqrt fc * b * d) / 1000
  { phi := phi,
    lambdaConcrete := if lightweight then 0.75 else 1,
    Vc_N := VcN,
    Vs_req_N := shearVsReqN b d fc VuKN lightweight,
    Vs_threshold_N := shearVsThresholdN b d fc,
    s_req_mm := shearSReq b d fc fySt VuKN stirrupDia lightweight,
    s_min_req_mm := shearSMin b fc fySt stirrupDia,
    s_table_max_mm := shearSTable b d fc VuKN lightweight,
    s_use_mm := sUse,
    governing_limit := shearGoverning b d fc fySt VuKN stirrupDia lightweight,
    Vs_prov_N := VsProvN,
    phiVn_kN := phiVnKN,
    ok := (match VuKN with
      | none => True
      | some v => v ≤ phiVnKN + 1 / 1000000) ∧
      (match VuKN with
      | none => True
      | some v => v ≤ dimLimit + 1 / 1000000),
    dim_limit_phiV_kN := dimLimit,
    ok_dim := match VuKN with
      | none => True
      | some v => v ≤ dimLimit + 1 / 1000000 }

theorem shearVuN_some (x : ℝ) : shearVuN (some x) = x * 1000 := rfl

theorem calcShear_s_use (b d fc fySt : ℝ) (VuKN : Option ℝ)
    (stirrupDia : ℝ) (lightweight : Bool) :
    (calcShear b d fc fySt VuKN stirrupDia lightweight).s_use_mm =
      shearSUse b d fc fySt VuKN stirrupDia lightweight := rfl

theorem calcShear_governing (b d fc fySt : ℝ) (VuKN : Option ℝ)
    (stirrupDia : ℝ) (lightweight : Bool) :
    (calcShear b d fc fySt VuKN stirrupDia lightweight).governing_limit =
      shearGoverning b d fc fySt VuKN stirrupDia lightweight := rfl

theorem shearAv_nonneg (stirrupDia : ℝ) : 0 ≤ shearAv stirrupDia := by
  unfold shearAv areaOfBar
  positivity

theorem shearVsReqN_mono (b d fc : ℝ) (lightweight : Bool) {v1 v2 : ℝ}
    (h : v1 ≤ v2) :
    shearVsReqN b d fc (some v1) lightweight ≤
      shearVsReqN b d fc (some v2) lightweight := by
  unfold shearVsReqN
  rw [shearVuN_some, shearVuN_some]
  exact max_le_max (by gcongr) le_rfl

theorem shearSTable_mono (b d fc : ℝ) (lightweight : Bool) {v1 v2 : ℝ}
    (hd : 0 ≤ d) (h : v1 ≤ v2) :
    shearSTable b d fc (some v2) lightweight ≤
      shearSTable b d fc (some v1) lightweight := by
  have hR := shearVsReqN_mono b d fc lightweight h
  unfold shearSTable
  by_cases h2 : shearVsReqN b d fc (some v2) lightweight ≤
      shearVsThresholdN b d fc + 1 / 1000000
  · rw [if_pos h2, if_pos (le_trans hR h2)]
  · rw [if_neg h2]
    by_cases h1 : shearVsReqN b d fc (some v1) lightweight ≤
        shearVsThresholdN b d fc + 1 / 1000000
    · rw [if_pos h1]
      refine le_min (le_trans (min_le_left _ _) (by linarith))
        (le_trans (min_le_right _ _) (by norm_num))
    · rw [if_neg h1]

/-- C2 amended.  For every shear-design input whose factored demand Vu
equals phi times Vc exactly (so the required steel shear strength is 0,
and the strength-based spacing falls back to the table maximum), the
governing-limit tag is `strength` or `minimum` — never `table`: when the
table maximum governs, the comparison `abs (s_use - s_req) <= 1e-6`
fires first because `s_req` aliases the table maximum, and the result
is labeled `strength`. -/
theorem c2_amended_governing_at_phiVc (b d fc fySt stirrupDia : ℝ)
    (lightweight : Bool) :
    shearGoverning b d fc fySt
        (some (0.75 * shearVcN b d fc lightweight / 1000)) stirrupDia
        lightweight = Governing.strength ∨
    shearGoverning b d fc fySt
        (some (0.75 * shearVcN b d fc lightweight / 1000)) stirrupDia
        lightweight = Governing.minimum := by
  have hreq : shearVsReqN b d fc
      (some (0.75 * shearVcN b d fc lightweight / 1000)) lightweight = 0 := by
    unfold shearVsReqN
    rw [shearVuN_some]
    have h0 : 0.75 * shearVcN b d fc lightweight / 1000 * 1000 / 0.75 -
        shearVcN b d fc lightweight = 0 := by ring
    rw [h0, max_self]
  have hsreq : shearSReq b d fc fySt
      (some (0.75 * shearVcN b d fc lightweight / 1000)) stirrupDia
      lightweight = shearSTable b d fc
      (some (0.75 * shearVcN b d fc lightweight / 1000)) lightweight := by
    unfold shearSReq
    rw [if_pos (Or.inl (by rw [hreq]; unfold EPS; norm_num))]
  have hsuse : shearSUse b d fc fySt
      (some (0.75 * shearVcN b d fc lightweight / 1000)) stirrupDia
      lightweight = min (min (shearSTable b d fc
      (some (0.75 * shearVcN b d fc lightweight / 1000)) lightweight)
      (shearSMin b fc fySt stirrupDia)) (shearSTable b d fc
      (some (0.75 * shearVcN b d fc lightweight / 1000)) lightweight) := by
    unfold shearSUse
    rw [hsreq]
  rcases le_total (shearSTable b d fc
      (some (0.75 * shearVcN b d fc lightweight / 1000)) lightweight)
      (shearSMin b fc fySt stirrupDia) with h | h
  · left
    unfold shearGoverning
    rw [hsuse, hsreq, min_eq_left h, min_self, sub_self, abs_zero,
      if_pos (by norm_num : (0 : ℝ) ≤ 1 / 1000000)]
  · unfold shearGoverning
    rw [hsuse, hsreq, min_eq_right h, min_eq_left h]
    by_cases hc : |shearSMin b fc fySt stirrupDia - shearSTable b d fc
        (some (0.75 * shearVcN b d fc lightweight / 1000)) lightweight| ≤
        1 / 1000000
    · left
      rw [if_pos hc]
    · right
      rw [if_neg hc, sub_self, abs_zero,
        if_pos (by norm_num : (0 : ℝ) ≤ 1 / 1000000)]

/-- C2 counterexample.  For b = 100, d = 200, fc = 25, fy_stirrup = 275,
stirrup diameter 10, normal-weight concrete, the demand Vu = 12.5 kN
equals phi times Vc exactly (Vc = 50000/3 N, phi = 0.75), yet the
governing-limit tag is `strength`, which the claim says can never
happen at such a demand. -/
theorem c2_counterexample_phiVc_labeled_strength :
    (12.5 : ℝ) = 0.75 * shearVcN 100 200 25 false / 1000 ∧
    (calcShear 100 200 25 275 (some 12.5) 10 false).governing_limit =
      Governing.strength := by
  have hsqrt : Real.sqrt 25 = 5 := by
    rw [show (25 : ℝ) = 5 ^ 2 by norm_num, Real.sqrt_sq (by norm_num)]
  have hreq : shearVsReqN 100 200 25 (some 12.5) false = 0 := by
    unfold shearVsReqN shearVcN
    rw [shearVuN_some, hsqrt]
    simp only [Bool.false_eq_true, if_false]
    rw [show (12.5 : ℝ) * 1000 / 0.75 - 1 / 6 * 1 * 5 * 100 * 200 = 0 by
      norm_num, max_self]
  have hTable : shearSTable 100 200 25 (some 12.5) false = 100 := by
    unfold shearSTable
    rw [hreq, if_pos]
    · rw [show (200 : ℝ) / 2 = 100 by norm_num,
        min_eq_left (by norm_num : (100 : ℝ) ≤ 600)]
    · unfold shearVsThresholdN
      rw [hsqrt]
      norm_num
  have hsreq : shearSReq 100 200 25 275 (some 12.5) 10 false = 100 := by
    unfold shearSReq
    rw [if_pos (Or.inl (by rw [hreq]; unfold EPS; norm_num)), hTable]
  have hMin_ge : (100 : ℝ) ≤ shearSMin 100 25 275 10 := by
    unfold shearSMin shearAv areaOfBar
    rw [hsqrt]
    have hE : max (275 : ℝ) EPS = 275 :=
      max_eq_left (by unfold EPS; norm_num)
    rw [hE]
    have h1 : max ((0.062 : ℝ) * 5 * 100 / 275) (0.35 * 100 / 275) =
        0.35 * 100 / 275 := max_eq_right (by norm_num)
    rw [h1]
    have h2 : max ((0.35 : ℝ) * 100 / 275) EPS = 0.35 * 100 / 275 :=
      max_eq_left (by unfold EPS; norm_num)
    rw [h2]
    have h3 : 2 * (Real.pi * 10 ^ 2 / 4) / ((0.35 : ℝ) * 100 / 275) =
        2750 / 7 * Real.pi := by ring
    rw [h3]
    nlinarith [Real.pi_gt_three]
  have hsuse : shearSUse 100 200 25 275 (some 12.5) 10 false = 100 := by
    unfold shearSUse
    rw [hsreq, hTable, min_eq_left hMin_ge, min_self]
  refine ⟨?_, ?_⟩
  · unfold shearVcN
    rw [hsqrt]
    simp only [Bool.false_eq_true, if_false]
    norm_num
  · rw [calcShear_governing]
    unfold shearGoverning
    rw [hsuse, hsreq, sub_self, abs_zero,
      if_pos (by norm_num : (0 : ℝ) ≤ 1 / 1000000)]

/-- C7.  For two shear-design inputs identical except for the factored
demand, both demands present with Vu1 at most Vu2, the governing
spacing computed for Vu2 is at most the governing spacing computed for
Vu1 (the effective depth and the stirrup yield strength are
nonnegative, as every valid input has by the serializer bounds). -/
theorem c7_governing_spacing_antitone_in_Vu (b d fc fySt stirrupDia : ℝ)
    (lightweight : Bool) (v1 v2 : ℝ) (hd : 0 ≤ d) (hfy : 0 ≤ fySt)
    (hv : v1 ≤ v2) :
    (calcShear b d fc fySt (some v2) stirrupDia lightweight).s_use_mm ≤
    (calcShear b d fc fySt (some v1) stirrupDia lightweight).s_use_mm := by
  rw [calcShear_s_use, calcShear_s_use]
  have hR := shearVsReqN_mono b d fc lightweight hv
  have hT := shearSTable_mono b d fc lightweight hd hv
  have hAv := shearAv_nonneg stirrupDia
  unfold shearSUse
  refine le_min (le_min ?_ ?_) ?_
  · by_cases hbr : shearVsReqN b d fc (some v1) lightweight ≤ EPS ∨
        shearAv stirrupDia ≤ EPS ∨ d ≤ EPS
    · have hsr1 : shearSReq b d fc fySt (some v1) stirrupDia lightweight =
          shearSTable b d fc (some v1) lightweight := by
        unfold shearSReq
        rw [if_pos hbr]
      rw [hsr1]
      exact le_trans (min_le_right _ _) hT
    · push_neg at hbr
      obtain ⟨h1, h2, h3⟩ := hbr
      have hbr2 : ¬(shearVsReqN b d fc (some v2) lightweight ≤ EPS ∨
          shearAv stirrupDia ≤ EPS ∨ d ≤ EPS) := by
        push_neg
        exact ⟨lt_of_lt_of_le h1 hR, h2, h3⟩
      have hReq12 : shearSReq b d fc fySt (some v2) stirrupDia lightweight ≤
          shearSReq b d fc fySt (some v1) stirrupDia lightweight := by
        unfold shearSReq
        rw [if_neg hbr2, if_neg (by push_neg; exact ⟨h1, h2, h3⟩)]
        have hR1pos : 0 < shearVsReqN b d fc (some v1) lightweight :=
          lt_trans (by unfold EPS; norm_num) h1
        have hR2pos : 0 < shearVsReqN b d fc (some v2) lightweight :=
          lt_of_lt_of_le hR1pos hR
        rw [div_le_div_iff₀ hR2pos hR1pos]
        exact mul_le_mul_of_nonneg_left hR
          (mul_nonneg (mul_nonneg hAv hfy) hd)
      exact le_trans (le_trans (min_le_left _ _) (min_le_left _ _)) hReq12
  · exact le_trans (min_le_left _ _) (min_le_right _ _)
  · exact le_trans (min_le_right _ _) hT

/-!
JSON sanitizer (`_json_safe`) and the tail of `run_calculation`.  A
Python value crossing the boundary is a float (finite, NaN, +inf or
-inf), an int, a string, a bool, `None`, a list or tuple (both become
lists), or a dict; dict keys are strings, which `_json_safe` never
touches, so `obj` keeps only the list of its values.  String and int
contents carry no float, so they are content-free here.
-/

/-- A Python float as seen by `math.isfinite`: finite with its value,
or one of the three non-finite values. -/
inductive FVal where
  | fin (x : ℝ)
  | nan
  | inf
  | ninf

/-- A Python value of the shapes `run_calculation` can return. -/
inductive J where
  | num (v : FVal)
  | intv (n : ℤ)
  | str
  | jbool (b : Bool)
  | null
  | arr (l : List J)
  | obj (l : List J)

mutual

/-- Mirror of `_json_safe`: replace NaN and the infinities with `None`
recursively; recurse through dicts, lists and tuples; pass everything
else through unchanged. -/
def jsonSafe : J → J
  | .num (.fin x) => .num (.fin x)
  | .num .nan => .null
  | .num .inf => .null
  | .num .ninf => .null
  | .intv n => .intv n
  | .str => .str
  | .jbool b => .jbool b
  | .null => .null
  | .arr l => .arr (jsonSafeList l)
  | .obj l => .obj (jsonSafeList l)

/-- `_json_safe` over the elements of a list, tuple or dict. -/
def jsonSafeList : List J → List J
  | [] => []
  | j :: rest => jsonSafe j :: jsonSafeList rest

end

mutual

/-- No NaN or infinity anywhere in the value. -/
def finiteOnly : J → Prop
  | .num (.fin _) => True
  | .num .nan => False
  | .num .inf => False
  | .num .ninf => False
  | .intv _ => True
  | .str => True
  | .jbool _ => True
  | .null => True
  | .arr l => finiteOnlyList l
  | .obj l => finiteOnlyList l

/-- No NaN or infinity anywhere in any element of the list. -/
def finiteOnlyList : List J → Prop
  | [] => True
  | j :: rest => finiteOnly j ∧ finiteOnlyList rest

end

/-- The value `run_calculation` hands back: its raw report dictionary
passed through `_json_safe` (source line: `return _json_safe(out)`). -/
def runCalculationReport (rawOut : J) : J := jsonSafe rawOut

mutual

theorem jsonSafe_finite : ∀ j, finiteOnly (jsonSafe j)
  | .num (.fin _) => trivial
  | .num .nan => trivial
  | .num .inf => trivial
  | .num .ninf => trivial
  | .intv _ => trivial
  | .str => trivial
  | .jbool _ => trivial
  | .null => trivial
  | .arr l => jsonSafeList_finite l
  | .obj l => jsonSafeList_finite l

theorem jsonSafeList_finite : ∀ l, finiteOnlyList (jsonSafeList l)
  | [] => trivial
  | j :: rest => ⟨jsonSafe_finite j, jsonSafeList_finite rest⟩

end

/-- C7 witness: at b = 100, d = 200, fc = 25, fy_stirrup = 275, stirrup
diameter 10, normal-weight, the governing spacing for Vu = 20 kN is at
most the governing spacing for Vu = 12.5 kN. -/
theorem c7_governing_spacing_antitone_witness :
    (0 : ℝ) ≤ 200 ∧ (0 : ℝ) ≤ 275 ∧ (12.5 : ℝ) ≤ 20 ∧
    (calcShear 100 200 25 275 (some 20) 10 false).s_use_mm ≤
    (calcShear 100 200 25 275 (some 12.5) 10 false).s_use_mm :=
  ⟨by norm_num, by norm_num, by norm_num,
    c7_governing_spacing_antitone_in_Vu 100 200 25 275 10 false 12.5 20
      (by norm_num) (by norm_num) (by norm_num)⟩

/-!
The rho-min enforcement slice of `run_calculation` (steps 1-4 of the
orchestrator): placement, tension-steel ratios, the virtual bar added
when the placed area falls below `As_min`, flexure on the augmented
list, and shear at the flexural effective depth.  The inner fields of
the report dictionary not involved in claims (echoes, LaTeX, ok flags)
are omitted; `Mu` feeds only the `flexure_ok` flag and is not needed.
Placement inputs stay exact rationals; strength inputs are reals.
-/

/-- `rho_min = max(1.4/fy, 0.25*sqrt(fc)/fy)` (with the `EPS` guard of
the source). -/
noncomputable def rhoMin (fc fyMain : ℝ) : ℝ :=
  max (1.4 / max fyMain EPS) (0.25 * Real.sqrt fc / max fyMain EPS)

/-- `As_t`: placed tension steel area. -/
noncomputable def runAsT (pr : PlacementResult) : ℝ :=
  sumArea (pr.bars.map barQtoR) .tension

/-- `y_t`: placed tension steel centroid depth. -/
noncomputable def runYT (pr : PlacementResult) : ℝ :=
  centroidOfRole (pr.bars.map barQtoR) .tension

/-- `d_eff = h - y_t`. -/
noncomputable def runDEff (height : ℚ) (pr : PlacementResult) : ℝ :=
  (height : ℝ) - runYT pr

/-- `As_min = rho_min * b * d_eff`. -/
noncomputable def runAsMin (width height : ℚ) (fc fyMain : ℝ)
    (pr : PlacementResult) : ℝ :=
  rhoMin fc fyMain * (width : ℝ) * runDEff height pr

/-- `virt_dia = sqrt(4*deltaA/pi)` with `deltaA = As_min - As_t`. -/
noncomputable def virtDia (width height : ℚ) (fc fyMain : ℝ)
    (pr : PlacementResult) : ℝ :=
  Real.sqrt (4 * (runAsMin width height fc fyMain pr - runAsT pr) / Real.pi)

/-- The virtual tension bar appended for capacity only: mid-width of
the stirrup interior, at the tension-steel centroid depth, layer 1. -/
noncomputable def virtBar (width height : ℚ) (fc fyMain : ℝ)
    (pr : PlacementResult) : BarR :=
  ⟨((pr.stirrup_inside.x_min : ℝ) + (pr.stirrup_inside.x_max : ℝ)) / 2,
   runYT pr, virtDia width height fc fyMain pr, Role.tension, 1⟩

/-- The fields of the orchestrator's result involved in the rho-min
enforcement: the bar list used for capacity, the `used_rho_min`
flag, the reported physical layout, the ratio quantities, and the
flexure and shear sub-results. -/
structure RunOut where
  bars_for_calc : List BarR
  used_rho_min : Bool
  rebar_layout : List BarQ
  As_t : ℝ
  As_min : ℝ
  d_eff : ℝ
  flex : FlexureResult
  shear : ShearResult

/-- Mirror of `run_calculation` steps 1-4: placement (errors and the
padding-loop divergence propagate), rho-min augmentation, flexure on
the augmented bars, shear at `d = flex.d`.  The compression diameter is
forwarded only when `n_compression > 0`, as in the source. -/
noncomputable def runCalc (width height cover stirrupDia dbT : ℚ)
    (nT nC : ℤ) (dbC : ℚ) (agg : Option ℚ) (fc fyMain fySt : ℝ)
    (VuKN : Option ℝ) (lightweight : Bool) : Res RunOut :=
  match placeBars width height cover stirrupDia nT dbT nC
      (if 0 < nC then some dbC else none) agg with
  | .err e => .err e
  | .hang => .hang
  | .ok pr =>
    let barsForCalc :=
      if runAsT pr + 1 / 1000000000 < runAsMin width height fc fyMain pr then
        pr.bars.map barQtoR ++ [virtBar width height fc fyMain pr]
      else pr.bars.map barQtoR
    let flex := calcFlexure (width : ℝ) (height : ℝ) fc fyMain barsForCalc
    Res.ok
      { bars_for_calc := barsForCalc,
        used_rho_min :=
          if runAsT pr + 1 / 1000000000 <
              runAsMin width height fc fyMain pr then true else false,
        rebar_layout := pr.bars,
        As_t := runAsT pr,
        As_min := runAsMin width height fc fyMain pr,
        d_eff := runDEff height pr,
        flex := flex,
        shear := calcShear (width : ℝ) flex.d fc fySt VuKN
          (stirrupDia : ℝ) lightweight }

/-- Bars placed for the C10 witness input (width 300, height 500,
cover 40, stirrup 10, two 10 mm tension bars). -/
def c10Bars : List BarQ :=
  [⟨265 / 2, 55, 10, .tension, 1⟩, ⟨335 / 2, 55, 10, .tension, 1⟩]

/-- Placement result for the C10 witness input. -/
def c10PR : PlacementResult := ⟨c10Bars, ⟨50, 50, 250, 450⟩⟩

theorem c10_place_eval :
    placeBars 300 500 40 10 2 10 0 none none = .ok c10PR := by
  have hcap : maxBarsOneRow 200 10 25 = 6 := by norm_num [maxBarsOneRow]
  have hsym : symmetricRowPositions 200 2 10 25 =
      .ok [165 / 2, 235 / 2] := by
    norm_num [symmetricRowPositions, EPSq]
    rw [show List.range (Int.toNat 2) = [0, 1] from rfl]
    norm_num
  have hmin : minClearSpacing 10 none = 25 := by norm_num [minClearSpacing]
  have ht : placeTensionBars 200 50 50 450 2 10 none =
      .ok c10Bars := by
    rw [placeTensionBars, hmin]
    norm_num [hcap, hsym, c10Bars, c10PR]
  rw [placeBars]
  norm_num [ht, c10PR]

/-- C8.  Whatever raw report value the pipeline builds, the returned
report (the raw value passed through the sanitizer) contains no NaN
and no infinity anywhere in any nested dict, list or tuple, and each
of the three non-finite values is itself mapped to the `None`
marker. -/
theorem c8_report_no_nonfinite :
    (∀ rawOut : J, finiteOnly (runCalculationReport rawOut)) ∧
    runCalculationReport (J.num FVal.nan) = J.null ∧
    runCalculationReport (J.num FVal.inf) = J.null ∧
    runCalculationReport (J.num FVal.ninf) = J.null :=
  ⟨fun rawOut => jsonSafe_finite rawOut, rfl, rfl, rfl⟩

/-- C10.  Whenever placement succeeds and the placed tension area
`As_t` is strictly below `As_min - 1e-9`, the orchestrator computes
flexure on an augmented list: the placed bars plus one virtual tension
bar at mid-width of the stirrup interior and at the tension-steel
centroid depth, whose circular area is exactly `As_min - As_t`; it
flags `used_rho_min_for_capacity`, while the reported rebar layout
still lists exactly the physically placed bars. -/
theorem c10_rho_min_virtual_bar (width height cover stirrupDia dbT : ℚ)
    (nT nC : ℤ) (dbC : ℚ) (agg : Option ℚ) (fc fyMain fySt : ℝ)
    (VuKN : Option ℝ) (lightweight : Bool) (pr : PlacementResult)
    (hok : placeBars width height cover stirrupDia nT dbT nC
      (if 0 < nC then some dbC else none) agg = .ok pr)
    (hlt : runAsT pr + 1 / 1000000000 <
      runAsMin width height fc fyMain pr) :
    ∃ out : RunOut,
      runCalc width height cover stirrupDia dbT nT nC dbC agg fc fyMain
        fySt VuKN lightweight = .ok out ∧
      out.used_rho_min = true ∧
      out.bars_for_calc =
        pr.bars.map barQtoR ++ [virtBar width height fc fyMain pr] ∧
      areaOfBar (virtBar width height fc fyMain pr).dia_mm =
        runAsMin width height fc fyMain pr - runAsT pr ∧
      out.rebar_layout = pr.bars ∧
      out.flex = calcFlexure (width : ℝ) (height : ℝ) fc fyMain
        out.bars_for_calc := by
  refine ⟨⟨pr.bars.map barQtoR ++ [virtBar width height fc fyMain pr],
      true, pr.bars, runAsT pr, runAsMin width height fc fyMain pr,
      runDEff height pr,
      calcFlexure (width : ℝ) (height : ℝ) fc fyMain
        (pr.bars.map barQtoR ++ [virtBar width height fc fyMain pr]),
      calcShear (width : ℝ)
        (calcFlexure (width : ℝ) (height : ℝ) fc fyMain
          (pr.bars.map barQtoR ++
            [virtBar width height fc fyMain pr])).d fc fySt VuKN
        (stirrupDia : ℝ) lightweight⟩,
    ?_, rfl, rfl, ?_, rfl, rfl⟩
  · unfold runCalc
    rw [hok]
    dsimp only
    simp only [if_pos hlt]
  · unfold areaOfBar virtBar virtDia
    dsimp only
    have h0 : 0 ≤ runAsMin width height fc fyMain pr - runAsT pr := by
      linarith
    have h1 : 0 ≤ 4 * (runAsMin width height fc fyMain pr - runAsT pr) /
        Real.pi := div_nonneg (by linarith) (le_of_lt Real.pi_pos)
    rw [Real.sq_sqrt h1]
    field_simp

/-- C10 witness: for width 300, height 500, cover 40, stirrup 10, two
10 mm tension bars, fc = 21, fy = 415, the placed area 50*pi falls
below As_min = 1.4/415*300*445, so the pipeline augments with the
virtual bar while the layout stays the two placed bars. -/
theorem c10_rho_min_virtual_bar_witness :
    placeBars 300 500 40 10 2 10 0
      (if (0 : ℤ) < 0 then some (0 : ℚ) else none) none = .ok c10PR ∧
    runAsT c10PR + 1 / 1000000000 < runAsMin 300 500 21 415 c10PR ∧
    ∃ out : RunOut,
      runCalc 300 500 40 10 10 2 0 0 none 21 415 275 none false =
        .ok out ∧
      out.used_rho_min = true ∧
      out.bars_for_calc =
        c10PR.bars.map barQtoR ++ [virtBar 300 500 21 415 c10PR] ∧
      areaOfBar (virtBar 300 500 21 415 c10PR).dia_mm =
        runAsMin 300 500 21 415 c10PR - runAsT c10PR ∧
      out.rebar_layout = c10PR.bars ∧
      out.flex = calcFlexure ((300 : ℚ) : ℝ) ((500 : ℚ) : ℝ) 21 415
        out.bars_for_calc := by
  have hA : placeBars 300 500 40 10 2 10 0
      (if (0 : ℤ) < 0 then some (0 : ℚ) else none) none = .ok c10PR := by
    rw [show (if (0 : ℤ) < 0 then some (0 : ℚ) else none) =
      (none : Option ℚ) by norm_num]
    exact c10_place_eval
  have hAsT : runAsT c10PR = 50 * Real.pi := by
    simp [runAsT, sumArea, c10PR, c10Bars, barQtoR, areaOfBar]
    ring
  have hYT : runYT c10PR = 55 := by
    unfold runYT centroidOfRole
    dsimp only
    rw [show sumArea (c10PR.bars.map barQtoR) .tension = 50 * Real.pi by
      rw [show sumArea (c10PR.bars.map barQtoR) .tension = runAsT c10PR
        from rfl, hAsT]]
    rw [if_neg (by simp only [EPS]; push_neg; nlinarith [Real.pi_gt_three])]
    rw [div_eq_iff (by positivity)]
    simp [c10PR, c10Bars, barQtoR, areaOfBar]
    ring
  have hrho : rhoMin 21 415 = 1.4 / 415 := by
    have h21 : Real.sqrt 21 < 5.6 := by
      nlinarith [Real.sq_sqrt (show (0 : ℝ) ≤ 21 by norm_num),
        Real.sqrt_nonneg (21 : ℝ)]
    unfold rhoMin
    rw [max_eq_left (by unfold EPS; norm_num : EPS ≤ (415 : ℝ))]
    apply max_eq_left
    rw [div_le_div_iff₀ (by norm_num) (by norm_num)]
    nlinarith [h21]
  have hAsMin : runAsMin 300 500 21 415 c10PR = 1.4 / 415 * 300 * 445 := by
    unfold runAsMin runDEff
    rw [hrho, hYT]
    norm_num
  have hB : runAsT c10PR + 1 / 1000000000 <
      runAsMin 300 500 21 415 c10PR := by
    rw [hAsT, hAsMin]
    nlinarith [Real.pi_lt_d2]
  exact ⟨hA, hB, c10_rho_min_virtual_bar 300 500 40 10 10 2 0 0 none
    21 415 275 none false c10PR hA hB⟩

end NSCP
